import Mathlib

/-!
# Verification of the squarewise puzzle-generation engine

Shallow embedding of the KenKen-style puzzle engine:
the seeded RNG (`src/utils/rng.ts`), the Latin-square generator and
backtracking solver (`src/engine/generator/LatinSquare.ts` and the solver
module), the cage partitioner (`src/engine/generator/CageGenerator.ts`),
the clue calculator (`ClueCalculator.ts`), the move validator
(`src/engine/validation/Validator.ts`), the difficulty engine and the
puzzle assembler (`PuzzleGenerator.ts`).

Modelling conventions:
* JS numbers holding integers are `Nat`; 32-bit wrap-around from JS bitwise
  operators is explicit `% 2^32`.
* JS arrays indexed by `(row, col)` are modelled as total functions
  `Nat → Nat → Nat` (a 2-D array is its lookup function; an in-place write
  on a copy is a pointwise functional update), except inside the
  backtracking solver, where the mutated grid is represented by the list of
  values assigned so far in row-major cell order (the solver's discipline
  guarantees all cells at index ≥ the current cell are `0`).
* Mutable state threaded through calls (the RNG state, the `visited` set)
  is passed and returned explicitly.
-/

namespace Squarewise

/-! ## Data model (`src/types/puzzle.ts`) -/

/-- A cell position `(row, col)`. -/
structure Cell where
  row : Nat
  col : Nat
deriving DecidableEq, Repr

/-- The cage operations `'+' | '-' | '×' | '÷' | 'none'`. -/
inductive Op where
  | add
  | sub
  | mul
  | div
  | none
deriving DecidableEq, Repr

/-- A cage clue: target value and operation. -/
structure Clue where
  target : Nat
  operation : Op
deriving DecidableEq, Repr

/-- A cage: identifier, cells, clue. -/
structure Cage where
  id : Nat
  cells : List Cell
  clue : Clue
deriving DecidableEq, Repr

/-! ## Seeded RNG (`src/utils/rng.ts`)

`SeededRNG` implements mulberry32.  JS bitwise operators coerce to 32 bits,
so the mixing pipeline is exact `Nat` arithmetic mod `2^32`; the additive
state update `this.seed += 0x6d2b79f5` is plain (unwrapped) addition in JS
and is kept as plain `Nat` addition, with the reduction mod `2^32`
happening where the bitwise operators apply it. -/

def U32 : Nat := 4294967296

theorem U32_eq_pow : U32 = 2 ^ 32 := by norm_num [U32]

/-- The mulberry32 mixing rounds applied to the (updated) state. -/
def mulberry32 (s : Nat) : Nat :=
  let t0 := s % U32
  let t1 := ((t0 ^^^ (t0 >>> 15)) * (t0 ||| 1)) % U32
  let t2 := t1 ^^^ ((t1 + ((t1 ^^^ (t1 >>> 7)) * (t1 ||| 61)) % U32) % U32)
  t2 ^^^ (t2 >>> 14)

/-- `next()`: advance the state by the fixed odd constant, mix.  Returns the
32-bit numerator `r` and the new state; the JS float result is exactly
`r / 2^32 ∈ [0,1)`. -/
def rngNext (s : Nat) : Nat × Nat :=
  let s' := s + 0x6d2b79f5
  (mulberry32 s', s')

/-- `nextInt(min, max)`: `Math.floor(this.next() * (max - min + 1)) + min`.
For every range the engine uses, the float products are exact, so this is
exact `Nat` arithmetic on the numerator. -/
def nextInt (lo hi s : Nat) : Nat × Nat :=
  let (r, s') := rngNext s
  (r * (hi - lo + 1) / U32 + lo, s')

/-- `hashString` (djb2): `hash = ((hash << 5) + hash) + charCode`, kept as an
unsigned 32-bit value; `(h << 5) + h = 33 * h` mod `2^32`. -/
def hashString (chars : List Nat) : Nat :=
  chars.foldl (fun h c => (h * 33 + c) % U32) 5381

/-- A seed is a JS number or a string (list of char codes). -/
inductive RNGSeed where
  | num : Nat → RNGSeed
  | str : List Nat → RNGSeed
deriving DecidableEq, Repr

/-- The constructor: numeric seeds are coerced with `>>> 0`, strings hashed. -/
def createRNG : RNGSeed → Nat
  | RNGSeed.num n => n % U32
  | RNGSeed.str cs => hashString cs

theorem xor_shiftRight_lt {n k : Nat} (h : n < 2 ^ 32) : n ^^^ n >>> k < 2 ^ 32 :=
  Nat.xor_lt_two_pow h
    (lt_of_le_of_lt
      (by rw [Nat.shiftRight_eq_div_pow]; exact Nat.div_le_self _ _) h)

theorem mulberry32_lt (s : Nat) : mulberry32 s < U32 := by
  unfold mulberry32
  simp only [U32_eq_pow]
  exact xor_shiftRight_lt
    (Nat.xor_lt_two_pow (Nat.mod_lt _ (by norm_num)) (Nat.mod_lt _ (by norm_num)))

theorem nextInt_ge (lo hi s : Nat) : lo ≤ (nextInt lo hi s).1 := by
  simp [nextInt, rngNext]

theorem nextInt_le {lo hi : Nat} (s : Nat) (h : lo ≤ hi) : (nextInt lo hi s).1 ≤ hi := by
  have hr : mulberry32 (s + 0x6d2b79f5) < U32 := mulberry32_lt _
  have hn : 0 < hi - lo + 1 := Nat.succ_pos _
  have hdiv : mulberry32 (s + 0x6d2b79f5) * (hi - lo + 1) / U32 < hi - lo + 1 := by
    have := Nat.mul_lt_mul_of_lt_of_le hr (Nat.le_refl (hi - lo + 1)) hn
    exact Nat.div_lt_of_lt_mul (by omega)
  simp only [nextInt, rngNext]
  omega

theorem nextInt_state (lo hi s : Nat) : (nextInt lo hi s).2 = s + 0x6d2b79f5 := rfl

/-! ## Clue derivation (`ClueCalculator.ts`) -/

/-- The candidate-clue list built by `calculateTwoCellClue`, in source
order, with the priorities the source attaches.  The division guard
`larger % smaller === 0` is `false` in JS whenever `smaller = 0` (the
remainder is `NaN`), hence the explicit `smaller ≠ 0` conjunct. -/
def twoCellCandidates (a b : Nat) (operations : List Op) : List (Clue × Nat) :=
  let larger := Nat.max a b
  let smaller := Nat.min a b
  (if operations.contains Op.add then [(⟨a + b, Op.add⟩, 1)] else []) ++
  (if operations.contains Op.sub && (larger != smaller) then
    [(⟨larger - smaller, Op.sub⟩, 2)] else []) ++
  (if operations.contains Op.mul then [(⟨a * b, Op.mul⟩, 3)] else []) ++
  (if operations.contains Op.div && (smaller != 0) && (larger % smaller == 0) then
    [(⟨larger / smaller, Op.div⟩, 4)] else [])

/-- `possibleClues.sort((a, b) => b.priority - a.priority)[0]`: the priorities
are pairwise distinct, so the head of the descending sort is the unique
maximum-priority element. -/
def maxByPriority (l : List (Clue × Nat)) : Option (Clue × Nat) :=
  l.foldl
    (fun acc x =>
      match acc with
      | Option.none => some x
      | some b => if b.2 < x.2 then some x else some b)
    Option.none

/-- `calculateTwoCellClue(values, operations)` with the addition fallback. -/
def calculateTwoCellClue (values : List Nat) (operations : List Op) : Clue :=
  let a := values.getD 0 0
  let b := values.getD 1 0
  match maxByPriority (twoCellCandidates a b operations) with
  | some x => x.1
  | Option.none => ⟨a + b, Op.add⟩

/-- `calculateMultiCellClue`: `+` if allowed, else `×` if allowed, else sum. -/
def calculateMultiCellClue (values : List Nat) (operations : List Op) : Clue :=
  if operations.contains Op.add then ⟨values.foldl (· + ·) 0, Op.add⟩
  else if operations.contains Op.mul then ⟨values.foldl (· * ·) 1, Op.mul⟩
  else ⟨values.foldl (· + ·) 0, Op.add⟩

/-- `calculateClue(cells, solution, operations)`. -/
def calculateClue (cells : List Cell) (solution : Nat → Nat → Nat)
    (operations : List Op) : Clue :=
  let values := cells.map (fun c => solution c.row c.col)
  if cells.length = 1 then ⟨values.getD 0 0, Op.none⟩
  else if cells.length = 2 then calculateTwoCellClue values operations
  else calculateMultiCellClue values operations

/-- The claim's description of the two-cell rule: the highest-priority
eligible operation in the fixed order `÷ > × > - > +`, addition fallback. -/
def claimedTwoCellClue (a b : Nat) (operations : List Op) : Clue :=
  let larger := Nat.max a b
  let smaller := Nat.min a b
  if operations.contains Op.div && (smaller != 0) && (larger % smaller == 0) then
    ⟨larger / smaller, Op.div⟩
  else if operations.contains Op.mul then ⟨a * b, Op.mul⟩
  else if operations.contains Op.sub && (a != b) then ⟨larger - smaller, Op.sub⟩
  else if operations.contains Op.add then ⟨a + b, Op.add⟩
  else ⟨a + b, Op.add⟩

/-! ## Difficulty presets (`src/engine/difficulty/presets.ts`) -/

inductive Difficulty where
  | beginner
  | easy
  | medium
  | hard
  | expert
deriving DecidableEq, Repr

structure DifficultyPreset where
  gridSize : Nat
  operations : List Op
  minCageSize : Nat
  maxCageSize : Nat
  singleCellRate : ℚ
  description : String

def getDifficultyPreset : Difficulty → DifficultyPreset
  | Difficulty.beginner =>
    ⟨4, [Op.add], 1, 2, 3/10, "4x4 grid with addition only. Perfect for learning."⟩
  | Difficulty.easy =>
    ⟨5, [Op.add, Op.sub], 1, 3, 2/10, "5x5 grid with addition and subtraction."⟩
  | Difficulty.medium =>
    ⟨6, [Op.add, Op.sub, Op.mul], 1, 4, 1/10,
      "6x6 grid with addition, subtraction, and multiplication."⟩
  | Difficulty.hard =>
    ⟨7, [Op.add, Op.sub, Op.mul, Op.div], 2, 5, 5/100, "7x7 grid with all operations."⟩
  | Difficulty.expert =>
    ⟨9, [Op.add, Op.sub, Op.mul, Op.div], 2, 6, 0,
      "9x9 grid with all operations. No single-cell cages."⟩

/-- The puzzle id `difficulty-NxN-timestamp-random`; the string formatting
is elided, the four components are kept. -/
structure PuzzleId where
  difficulty : Difficulty
  size : Nat
  timestamp : Nat
  rand : Nat
deriving DecidableEq, Repr

/-- A complete puzzle.  The solution grid is its lookup function. -/
structure Puzzle where
  id : PuzzleId
  size : Nat
  difficulty : Difficulty
  cages : List Cage
  solution : Nat → Nat → Nat
  seed : Option RNGSeed

/-- Row-major list of all cells of an `size × size` grid. -/
def allCellsList (size : Nat) : List Cell :=
  (List.range size).flatMap (fun r => (List.range size).map (fun c => Cell.mk r c))

/-! ## Difficulty engine (`DifficultyEngine.estimateDifficulty`) -/

/-- The `opComplexity` map; `'none'` is not in the map, so `?? 0` yields 0. -/
def opComplexity : Op → ℚ
  | Op.add => 5
  | Op.sub => 10
  | Op.mul => 15
  | Op.div => 20
  | Op.none => 0

/-- `estimateDifficulty`: base `size*10`, per-cage operation weights,
minus twice the average cage size, minus 5 per single-cell cage, clamped by
`Math.max(0, score)`.  JS float division `sum / count` is modelled exactly
in `ℚ` (with `x / 0 = 0` in place of JS `NaN` for an empty cage list). -/
def estimateDifficulty (p : Puzzle) : ℚ :=
  let score0 : ℚ := 0 + (p.size : ℚ) * 10
  let score1 : ℚ := p.cages.foldl (fun s cg => s + opComplexity cg.clue.operation) score0
  let avgCageSize : ℚ :=
    (p.cages.foldl (fun s cg => s + (cg.cells.length : ℚ)) 0) / (p.cages.length : ℚ)
  let score2 : ℚ := score1 - avgCageSize * 2
  let singleCellCages : ℚ :=
    ((p.cages.filter (fun cg => cg.cells.length == 1)).length : ℚ)
  let score3 : ℚ := score2 - singleCellCages * 5
  max 0 score3

/-- Modelled from the claim's wording: the score equals `size*10`, plus the
per-cage operation weights (`+:5, -:10, ×:15, ÷:20`, `none`: 0), minus
twice the average cage size, minus 5 per single-cell cage — with no
clamping at zero. -/
def claimedDifficultyScore (p : Puzzle) : ℚ :=
  (p.size : ℚ) * 10 + (p.cages.map (fun cg => opComplexity cg.clue.operation)).sum
    - 2 * ((p.cages.map (fun cg => (cg.cells.length : ℚ))).sum / (p.cages.length : ℚ))
    - 5 * ((p.cages.filter (fun cg => cg.cells.length == 1)).length : ℚ)

theorem foldl_add_map {α : Type} (f : α → ℚ) (l : List α) (init : ℚ) :
    l.foldl (fun s x => s + f x) init = init + (l.map f).sum := by
  induction l generalizing init with
  | nil => simp
  | cons x xs ih => simp [ih]; ring

/-- A 2×2 puzzle partitioned into four single-cell cages: the claim's
formula evaluates to `20 + 0 - 2*1 - 5*4 = -2`, but the code clamps at 0. -/
def singlesPuzzle : Puzzle where
  id := ⟨Difficulty.beginner, 2, 0, 0⟩
  size := 2
  difficulty := Difficulty.beginner
  cages :=
    [⟨0, [⟨0, 0⟩], ⟨1, Op.none⟩⟩, ⟨1, [⟨0, 1⟩], ⟨2, Op.none⟩⟩,
     ⟨2, [⟨1, 0⟩], ⟨2, Op.none⟩⟩, ⟨3, [⟨1, 1⟩], ⟨1, Op.none⟩⟩]
  solution := fun r c => (r + c) % 2 + 1
  seed := Option.none

/-- C8 counterexample: on `singlesPuzzle` the difficulty score computed by
the code is not the claim's formula (the code clamps `-2` up to `0`). -/
theorem estimateDifficulty_counterexample :
    estimateDifficulty singlesPuzzle ≠ claimedDifficultyScore singlesPuzzle ∧
      estimateDifficulty singlesPuzzle = 0 ∧
      claimedDifficultyScore singlesPuzzle = -2 := by
  have h1 : estimateDifficulty singlesPuzzle = 0 := by
    norm_num [estimateDifficulty, singlesPuzzle, opComplexity]
  have h2 : claimedDifficultyScore singlesPuzzle = -2 := by
    norm_num [claimedDifficultyScore, singlesPuzzle, opComplexity]
  refine ⟨?_, h1, h2⟩
  rw [h1, h2]
  norm_num

/-- C8 (amended): for every puzzle with at least one cage (with no cages
the JS computation produces `NaN`, which the `ℚ` model cannot express),
the difficulty score equals the claim's formula clamped below at `0`. -/
theorem estimateDifficulty_amended (p : Puzzle) (hc : p.cages ≠ []) :
    estimateDifficulty p = max 0 (claimedDifficultyScore p) := by
  simp only [estimateDifficulty, claimedDifficultyScore, foldl_add_map]
  ring_nf

theorem estimateDifficulty_amended_witness :
    singlesPuzzle.cages ≠ [] ∧
      estimateDifficulty singlesPuzzle = max 0 (claimedDifficultyScore singlesPuzzle) :=
  ⟨by decide, estimateDifficulty_amended singlesPuzzle (by decide)⟩

/-! ## Move validator (`src/engine/validation/Validator.ts`)

The validator never mutates the puzzle or the caller's grid: the source
copies the grid (`grid.map(row => [...row])`) and writes the candidate into
the copy; with grids as lookup functions this is a pointwise update. -/

structure ValidationResult where
  valid : Bool
  conflicts : List Cell
  cageErrors : List Cell
deriving DecidableEq, Repr

/-- `findConflicts`: other cells of the row, then of the column, already
holding the candidate value. -/
def findConflicts (p : Puzzle) (grid : Nat → Nat → Nat) (cell : Cell)
    (value : Nat) : List Cell :=
  (((List.range p.size).filter
      (fun col => col != cell.col && grid cell.row col == value)).map
    (fun col => Cell.mk cell.row col)) ++
  (((List.range p.size).filter
      (fun row => row != cell.row && grid row cell.col == value)).map
    (fun row => Cell.mk row cell.col))

/-- `findCage`: the first cage of the list containing the cell. -/
def findCage (p : Puzzle) (cell : Cell) : Option Cage :=
  p.cages.find? (fun cg => cg.cells.any (fun c => c.row == cell.row && c.col == cell.col))

/-- `Validator.validateCage`: exact arithmetic check of a fully filled cage.
`Math.abs(a - b)` is `max - min`; the JS real-division test
`larger / smaller === target` is, for a natural target, exactly
`larger = target * smaller` (with `smaller ≠ 0` checked first). -/
def validateCage (cg : Cage) (grid : Nat → Nat → Nat) : Bool :=
  let values := cg.cells.map (fun c => grid c.row c.col)
  match cg.clue.operation with
  | Op.none => values.length == 1 && values.getD 0 0 == cg.clue.target
  | Op.add => values.foldl (· + ·) 0 == cg.clue.target
  | Op.sub => values.length == 2 &&
      (Nat.max (values.getD 0 0) (values.getD 1 0)
        - Nat.min (values.getD 0 0) (values.getD 1 0)) == cg.clue.target
  | Op.mul => values.foldl (· * ·) 1 == cg.clue.target
  | Op.div => values.length == 2 &&
      (Nat.min (values.getD 0 0) (values.getD 1 0) != 0) &&
      (Nat.max (values.getD 0 0) (values.getD 1 0)
        == cg.clue.target * Nat.min (values.getD 0 0) (values.getD 1 0))

/-- Writing `value` at `cell` on a copy of the grid. -/
def gridUpdate (grid : Nat → Nat → Nat) (cell : Cell) (value : Nat) :
    Nat → Nat → Nat :=
  fun r c => if r = cell.row ∧ c = cell.col then value else grid r c

/-- The `allFilled` test of `findCageErrors` on the temporary grid. -/
def allCageFilled (cg : Cage) (grid : Nat → Nat → Nat) : Bool :=
  cg.cells.all (fun c => grid c.row c.col != 0)

/-- `findCageErrors`: apply the candidate to a copy; if the cage is not yet
fully filled report nothing, otherwise report the whole cage exactly when
the exact check fails. -/
def findCageErrors (p : Puzzle) (grid : Nat → Nat → Nat) (cell : Cell)
    (value : Nat) : List Cell :=
  match findCage p cell with
  | Option.none => []
  | some cg =>
    let tempGrid := gridUpdate grid cell value
    if allCageFilled cg tempGrid then
      (if validateCage cg tempGrid then [] else cg.cells)
    else []

/-- `isValidMove`. -/
def isValidMove (p : Puzzle) (grid : Nat → Nat → Nat) (cell : Cell)
    (value : Nat) : ValidationResult :=
  let conflicts := findConflicts p grid cell value
  let cageErrors := findCageErrors p grid cell value
  ⟨conflicts.length == 0 && cageErrors.length == 0, conflicts, cageErrors⟩

/-- Exact arithmetic satisfaction of a clue by the (ordered) cage values, as
the spec states it: `sum == target`, `product == target`, `|a-b| == target`,
`max/min == target` with exact division, single value equal to target. -/
def exactClueSpec (clue : Clue) (values : List Nat) : Prop :=
  match clue.operation with
  | Op.none => values.length = 1 ∧ values.getD 0 0 = clue.target
  | Op.add => values.sum = clue.target
  | Op.sub => ∃ a b, values = [a, b] ∧ Nat.max a b - Nat.min a b = clue.target
  | Op.mul => values.prod = clue.target
  | Op.div => ∃ a b, values = [a, b] ∧ Nat.min a b ≠ 0 ∧
      Nat.max a b = clue.target * Nat.min a b

theorem foldl_add_init (l : List Nat) : ∀ init : Nat, l.foldl (· + ·) init = init + l.sum := by
  induction l with
  | nil => simp
  | cons x xs ih => intro init; simp [ih]; omega

theorem foldl_mul_init (l : List Nat) : ∀ init : Nat, l.foldl (· * ·) init = init * l.prod := by
  induction l with
  | nil => simp
  | cons x xs ih => intro init; simp [ih, Nat.mul_assoc]

theorem foldl_add_nat (l : List Nat) : l.foldl (· + ·) 0 = l.sum := by
  simp [foldl_add_init]

theorem foldl_mul_nat (l : List Nat) : l.foldl (· * ·) 1 = l.prod := by
  simp [foldl_mul_init]

theorem validateCage_iff (cg : Cage) (grid : Nat → Nat → Nat) :
    validateCage cg grid = true ↔
      exactClueSpec cg.clue (cg.cells.map (fun c => grid c.row c.col)) := by
  unfold validateCage exactClueSpec
  cases cg.clue.operation
  case none => simp
  case add => simp [foldl_add_nat]
  case sub =>
    simp only [Bool.and_eq_true, beq_iff_eq, List.length_eq_two]
    constructor
    · rintro ⟨⟨a, b, hv⟩, ht⟩
      exact ⟨a, b, hv, by rw [hv] at ht; simpa using ht⟩
    · rintro ⟨a, b, hv, ht⟩
      exact ⟨⟨a, b, hv⟩, by rw [hv]; simpa using ht⟩
  case mul => simp [foldl_mul_nat]
  case div =>
    simp only [Bool.and_eq_true, beq_iff_eq, bne_iff_ne, List.length_eq_two]
    constructor
    · rintro ⟨⟨⟨a, b, hv⟩, hne⟩, ht⟩
      rw [hv] at hne ht
      exact ⟨a, b, hv, by simpa using hne, by simpa using ht⟩
    · rintro ⟨a, b, hv, hne, ht⟩
      rw [hv]
      exact ⟨⟨⟨a, b, rfl⟩, by simpa using hne⟩, by simpa using ht⟩

/-- C6: `isValidMove` reports cage errors only when the cell's cage becomes
fully filled after tentatively applying the candidate (to a copy — nothing
is mutated); a cage with a still-empty cell reports no errors; a fully
filled cage reports no errors exactly when the exact arithmetic check
holds, and reports all the cage's cells otherwise. -/
theorem isValidMove_cage_spec (p : Puzzle) (grid : Nat → Nat → Nat)
    (cell : Cell) (value : Nat) :
    (findCage p cell = Option.none → (isValidMove p grid cell value).cageErrors = []) ∧
    (∀ cg, findCage p cell = some cg →
      (allCageFilled cg (gridUpdate grid cell value) = false →
        (isValidMove p grid cell value).cageErrors = []) ∧
      (allCageFilled cg (gridUpdate grid cell value) = true →
        ((isValidMove p grid cell value).cageErrors = [] ↔
          exactClueSpec cg.clue
            (cg.cells.map (fun c => gridUpdate grid cell value c.row c.col))) ∧
        (¬ exactClueSpec cg.clue
            (cg.cells.map (fun c => gridUpdate grid cell value c.row c.col)) →
          (isValidMove p grid cell value).cageErrors = cg.cells))) := by
  have hner : ∀ cg : Cage, findCage p cell = some cg → cg.cells ≠ [] := by
    intro cg h hnil
    have hp := List.find?_some h
    rw [hnil] at hp
    simp at hp
  constructor
  · intro h
    simp [isValidMove, findCageErrors, h]
  · intro cg hcg
    have hne := hner cg hcg
    refine ⟨fun hnf => ?_, fun hf => ?_⟩
    · simp [isValidMove, findCageErrors, hcg, hnf]
    · have hval := validateCage_iff cg (gridUpdate grid cell value)
      have herr : (isValidMove p grid cell value).cageErrors
          = (if validateCage cg (gridUpdate grid cell value) then [] else cg.cells) := by
        simp [isValidMove, findCageErrors, hcg, hf]
      rw [herr]
      cases hv : validateCage cg (gridUpdate grid cell value)
      · have hnex : ¬ exactClueSpec cg.clue
            (cg.cells.map (fun c => gridUpdate grid cell value c.row c.col)) := by
          intro hx
          have := hval.mpr hx
          rw [hv] at this
          cases this
        simp [hne, hnex]
      · have hex := hval.mp hv
        simp [hex]

/-- The spec's §8 validator fixture: a `-` cage `{target 1}` over
`(1,0),(2,0)` with `grid[2][0] = 3`. -/
def valPuzzle : Puzzle where
  id := ⟨Difficulty.easy, 3, 0, 0⟩
  size := 3
  difficulty := Difficulty.easy
  cages := [⟨0, [⟨1, 0⟩, ⟨2, 0⟩], ⟨1, Op.sub⟩⟩]
  solution := fun _ _ => 0
  seed := Option.none

def valGrid : Nat → Nat → Nat := fun r c => if r = 2 ∧ c = 0 then 3 else 0

theorem isValidMove_cage_spec_witness :
    (isValidMove valPuzzle valGrid ⟨1, 0⟩ 2).cageErrors = [] := by
  have h := ((isValidMove_cage_spec valPuzzle valGrid ⟨1, 0⟩ 2).2
    ⟨0, [⟨1, 0⟩, ⟨2, 0⟩], ⟨1, Op.sub⟩⟩ (by decide)).2 (by decide)
  exact h.1.mpr ⟨2, 3, rfl, rfl⟩

/-! ## Latin square generator (`src/engine/generator/LatinSquare.ts`)

The `number[][]` square is modelled by its lookup function; the in-place
destructuring swaps are the corresponding functional updates. -/

/-- The base cyclic pattern `((row + col) % size) + 1`. -/
def baseSquare (size : Nat) : Nat → Nat → Nat := fun row col => (row + col) % size + 1

/-- Index transposition realised by `[x[i], x[j]] = [x[j], x[i]]`. -/
def swapIdx (i j r : Nat) : Nat := if r = i then j else if r = j then i else r

/-- Swap rows `i` and `j`. -/
def swapRows (i j : Nat) (g : Nat → Nat → Nat) : Nat → Nat → Nat :=
  fun r c => g (swapIdx i j r) c

/-- Swap columns `i` and `j` in every row. -/
def swapCols (i j : Nat) (g : Nat → Nat → Nat) : Nat → Nat → Nat :=
  fun r c => g r (swapIdx i j c)

/-- Value transposition: `a` becomes `b`, `b` becomes `a`. -/
def swapVal (a b v : Nat) : Nat := if v = a then b else if v = b then a else v

/-- Swap all occurrences of the values `a` and `b` in the square. -/
def relabel (a b : Nat) (g : Nat → Nat → Nat) : Nat → Nat → Nat :=
  fun r c => swapVal a b (g r c)

/-- The loop counter sequence of `for (let i = size - 1; i > 0; i--)`. -/
def downFrom (size : Nat) : List Nat := (List.range' 1 (size - 1)).reverse

/-- One iteration of the row-shuffle loop: `j = rng.nextInt(0, i)`, swap. -/
def shuffleRowsStep (st : (Nat → Nat → Nat) × Nat) (i : Nat) : (Nat → Nat → Nat) × Nat :=
  let (j, s') := nextInt 0 i st.2
  (swapRows i j st.1, s')

/-- One iteration of the column-shuffle loop. -/
def shuffleColsStep (st : (Nat → Nat → Nat) × Nat) (i : Nat) : (Nat → Nat → Nat) × Nat :=
  let (j, s') := nextInt 0 i st.2
  (swapCols i j st.1, s')

/-- One iteration of the relabelling loop: `a`, `b` in `[1, size]`, swap all
occurrences when `a ≠ b` (the two draws happen either way). -/
def relabelStep (size : Nat) (st : (Nat → Nat → Nat) × Nat) : (Nat → Nat → Nat) × Nat :=
  let (a, s1) := nextInt 1 size st.2
  let (b, s2) := nextInt 1 size s1
  (if a ≠ b then relabel a b st.1 else st.1, s2)

/-- `generateLatinSquare(size, rng)`: base pattern, row shuffle, column
shuffle, then `numSwaps = rng.nextInt(5, 15)` value transpositions. -/
def generateLatinSquare (size : Nat) (rng : Nat) : (Nat → Nat → Nat) × Nat :=
  let st1 := (downFrom size).foldl shuffleRowsStep (baseSquare size, rng)
  let st2 := (downFrom size).foldl shuffleColsStep st1
  let (numSwaps, r3) := nextInt 5 15 st2.2
  (List.range numSwaps).foldl (fun st _ => relabelStep size st) (st2.1, r3)

/-- The Latin invariant: in-range values, no repeat in a row or column. -/
def LatinFun (n : Nat) (g : Nat → Nat → Nat) : Prop :=
  (∀ r c, r < n → c < n → 1 ≤ g r c ∧ g r c ≤ n) ∧
  (∀ r c c', r < n → c < n → c' < n → g r c = g r c' → c = c') ∧
  (∀ r r' c, r < n → r' < n → c < n → g r c = g r' c → r = r')

theorem swapIdx_lt {n i j : Nat} (hi : i < n) (hj : j < n) {r : Nat} (hr : r < n) :
    swapIdx i j r < n := by
  unfold swapIdx; split_ifs <;> omega

theorem swapIdx_invol (i j r : Nat) : swapIdx i j (swapIdx i j r) = r := by
  unfold swapIdx; split_ifs <;> omega

theorem swapVal_invol (a b v : Nat) : swapVal a b (swapVal a b v) = v := by
  unfold swapVal; split_ifs <;> omega

theorem latin_base {n : Nat} (hn : 1 ≤ n) : LatinFun n (baseSquare n) := by
  refine ⟨?_, ?_, ?_⟩
  · intro r c hr hc
    unfold baseSquare
    have := Nat.mod_lt (r + c) (show 0 < n by omega)
    omega
  · intro r c c' hr hc hc' h
    unfold baseSquare at h
    have h2 : (r + c) % n = (r + c') % n := by omega
    have h3 : c % n = c' % n := Nat.ModEq.add_left_cancel' r h2
    rwa [Nat.mod_eq_of_lt hc, Nat.mod_eq_of_lt hc'] at h3
  · intro r r' c hr hr' hc h
    unfold baseSquare at h
    have h2 : (r + c) % n = (r' + c) % n := by omega
    have h3 : r % n = r' % n := Nat.ModEq.add_right_cancel' c h2
    rwa [Nat.mod_eq_of_lt hr, Nat.mod_eq_of_lt hr'] at h3

theorem latin_swapRows {n i j : Nat} (hi : i < n) (hj : j < n)
    {g : Nat → Nat → Nat} (hg : LatinFun n g) : LatinFun n (swapRows i j g) := by
  obtain ⟨hv, hrow, hcol⟩ := hg
  simp only [LatinFun, swapRows]
  refine ⟨?_, ?_, ?_⟩
  · intro r c hr hc
    exact hv _ _ (swapIdx_lt hi hj hr) hc
  · intro r c c' hr hc hc' h
    exact hrow _ _ _ (swapIdx_lt hi hj hr) hc hc' h
  · intro r r' c hr hr' hc h
    have h2 := hcol _ _ _ (swapIdx_lt hi hj hr) (swapIdx_lt hi hj hr') hc h
    have h3 := congrArg (swapIdx i j) h2
    rwa [swapIdx_invol, swapIdx_invol] at h3

theorem latin_swapCols {n i j : Nat} (hi : i < n) (hj : j < n)
    {g : Nat → Nat → Nat} (hg : LatinFun n g) : LatinFun n (swapCols i j g) := by
  obtain ⟨hv, hrow, hcol⟩ := hg
  simp only [LatinFun, swapCols]
  refine ⟨?_, ?_, ?_⟩
  · intro r c hr hc
    exact hv _ _ hr (swapIdx_lt hi hj hc)
  · intro r c c' hr hc hc' h
    have h2 := hrow _ _ _ hr (swapIdx_lt hi hj hc) (swapIdx_lt hi hj hc') h
    have h3 := congrArg (swapIdx i j) h2
    rwa [swapIdx_invol, swapIdx_invol] at h3
  · intro r r' c hr hr' hc h
    exact hcol _ _ _ hr hr' (swapIdx_lt hi hj hc) h

theorem latin_relabel {n a b : Nat} (ha1 : 1 ≤ a) (ha2 : a ≤ n) (hb1 : 1 ≤ b) (hb2 : b ≤ n)
    {g : Nat → Nat → Nat} (hg : LatinFun n g) : LatinFun n (relabel a b g) := by
  obtain ⟨hv, hrow, hcol⟩ := hg
  simp only [LatinFun, relabel]
  refine ⟨?_, ?_, ?_⟩
  · intro r c hr hc
    have := hv r c hr hc
    unfold swapVal
    split_ifs <;> omega
  · intro r c c' hr hc hc' h
    have h2 := congrArg (swapVal a b) h
    rw [swapVal_invol, swapVal_invol] at h2
    exact hrow _ _ _ hr hc hc' h2
  · intro r r' c hr hr' hc h
    have h2 := congrArg (swapVal a b) h
    rw [swapVal_invol, swapVal_invol] at h2
    exact hcol _ _ _ hr hr' hc h2

theorem foldl_preserve {α β : Type} (P : α → Prop) (f : α → β → α) (l : List β)
    (hf : ∀ a, P a → ∀ b ∈ l, P (f a b)) : ∀ a, P a → P (l.foldl f a) := by
  induction l with
  | nil => intro a ha; exact ha
  | cons x xs ih =>
    intro a ha
    exact ih (fun a' ha' b hb => hf a' ha' b (List.mem_cons_of_mem x hb))
      (f a x) (hf a ha x (List.mem_cons_self x xs))

theorem mem_downFrom {size i : Nat} (h : i ∈ downFrom size) : 1 ≤ i ∧ i < size := by
  unfold downFrom at h
  rw [List.mem_reverse, List.mem_range'] at h
  omega

/-- The state after the row- and column-shuffle loops. -/
def lsStage2 (size : Nat) (rng : Nat) : (Nat → Nat → Nat) × Nat :=
  (downFrom size).foldl shuffleColsStep
    ((downFrom size).foldl shuffleRowsStep (baseSquare size, rng))

theorem generateLatinSquare_eq (size rng : Nat) :
    generateLatinSquare size rng =
      (List.range (nextInt 5 15 (lsStage2 size rng).2).1).foldl
        (fun st _ => relabelStep size st)
        ((lsStage2 size rng).1, (nextInt 5 15 (lsStage2 size rng).2).2) := rfl

theorem generateLatinSquare_LatinFun (size : Nat) (rng : Nat) (h1 : 1 ≤ size) :
    LatinFun size (generateLatinSquare size rng).1 := by
  rw [generateLatinSquare_eq]
  have hrows : LatinFun size
      (((downFrom size).foldl shuffleRowsStep (baseSquare size, rng)).1) := by
    refine foldl_preserve (fun st => LatinFun size st.1) shuffleRowsStep (downFrom size)
      ?_ (baseSquare size, rng) (by exact latin_base h1)
    intro st hst i hi
    obtain ⟨hi1, hi2⟩ := mem_downFrom hi
    have hj : (nextInt 0 i st.2).1 < size :=
      lt_of_le_of_lt (nextInt_le st.2 (Nat.zero_le i)) hi2
    exact latin_swapRows hi2 hj hst
  have hcols : LatinFun size ((lsStage2 size rng).1) := by
    refine foldl_preserve (fun st => LatinFun size st.1) shuffleColsStep (downFrom size)
      ?_ _ hrows
    intro st hst i hi
    obtain ⟨hi1, hi2⟩ := mem_downFrom hi
    have hj : (nextInt 0 i st.2).1 < size :=
      lt_of_le_of_lt (nextInt_le st.2 (Nat.zero_le i)) hi2
    exact latin_swapCols hi2 hj hst
  refine foldl_preserve (fun st => LatinFun size st.1) (fun st _ => relabelStep size st)
    (List.range (nextInt 5 15 (lsStage2 size rng).2).1) ?_
    ((lsStage2 size rng).1, (nextInt 5 15 (lsStage2 size rng).2).2) (by exact hcols)
  intro st hst k hk
  simp only [relabelStep]
  have ha1 : 1 ≤ (nextInt 1 size st.2).1 := nextInt_ge 1 size st.2
  have ha2 : (nextInt 1 size st.2).1 ≤ size := nextInt_le st.2 h1
  have hb1 : 1 ≤ (nextInt 1 size (nextInt 1 size st.2).2).1 := nextInt_ge _ _ _
  have hb2 : (nextInt 1 size (nextInt 1 size st.2).2).1 ≤ size := nextInt_le _ h1
  split_ifs with hab
  · exact latin_relabel ha1 ha2 hb1 hb2 hst
  · exact hst

theorem latin_row_toFinset {n : Nat} {g : Nat → Nat → Nat} (hg : LatinFun n g)
    {r : Nat} (hr : r < n) :
    ((List.range n).map (fun c => g r c)).toFinset = Finset.Icc 1 n := by
  obtain ⟨hv, hrow, _⟩ := hg
  have hnd : ((List.range n).map (fun c => g r c)).Nodup := by
    refine List.Nodup.map_on ?_ (List.nodup_range n)
    intro c hc c' hc' h
    exact hrow r c c' hr (List.mem_range.mp hc) (List.mem_range.mp hc') h
  refine Finset.eq_of_subset_of_card_le ?_ ?_
  · intro v hvmem
    rw [List.mem_toFinset, List.mem_map] at hvmem
    obtain ⟨c, hc, hcv⟩ := hvmem
    have := hv r c hr (List.mem_range.mp hc)
    rw [Finset.mem_Icc]
    omega
  · rw [List.toFinset_card_of_nodup hnd]
    simp [Nat.card_Icc]

theorem latin_col_toFinset {n : Nat} {g : Nat → Nat → Nat} (hg : LatinFun n g)
    {c : Nat} (hc : c < n) :
    ((List.range n).map (fun r => g r c)).toFinset = Finset.Icc 1 n := by
  obtain ⟨hv, _, hcol⟩ := hg
  have hnd : ((List.range n).map (fun r => g r c)).Nodup := by
    refine List.Nodup.map_on ?_ (List.nodup_range n)
    intro r hr r' hr' h
    exact hcol r r' c (List.mem_range.mp hr) (List.mem_range.mp hr') hc h
  refine Finset.eq_of_subset_of_card_le ?_ ?_
  · intro v hvmem
    rw [List.mem_toFinset, List.mem_map] at hvmem
    obtain ⟨r, hr, hrv⟩ := hvmem
    have := hv r c (List.mem_range.mp hr) hc
    rw [Finset.mem_Icc]
    omega
  · rw [List.toFinset_card_of_nodup hnd]
    simp [Nat.card_Icc]

/-- C2: for every size `N ≥ 2` and every seed (numeric or string), every row
and every column of the generated square equals `{1..N}` as a set. -/
theorem generateLatinSquare_rows_cols (size : Nat) (seed : RNGSeed) (h2 : 2 ≤ size) :
    (∀ r, r < size →
      ((List.range size).map
          (fun c => (generateLatinSquare size (createRNG seed)).1 r c)).toFinset
        = Finset.Icc 1 size) ∧
    (∀ c, c < size →
      ((List.range size).map
          (fun r => (generateLatinSquare size (createRNG seed)).1 r c)).toFinset
        = Finset.Icc 1 size) := by
  have hg := generateLatinSquare_LatinFun size (createRNG seed) (by omega)
  exact ⟨fun r hr => latin_row_toFinset hg hr, fun c hc => latin_col_toFinset hg hc⟩

theorem generateLatinSquare_rows_cols_witness :
    2 ≤ 2 ∧
      (∀ r, r < 2 →
        ((List.range 2).map
            (fun c => (generateLatinSquare 2 (createRNG (RNGSeed.num 12345))).1 r c)).toFinset
          = Finset.Icc 1 2) :=
  ⟨by decide, (generateLatinSquare_rows_cols 2 (RNGSeed.num 12345) (by decide)).1⟩

/-! ## Cage partitioner (`src/engine/generator/CageGenerator.ts`)

The `visited` set of `"row,col"` string keys is modelled as the list of
visited cells (the key encoding is injective on cells).  The `cageCells`
set always mirrors the `cells` array of the growing cage, so the neighbor
filter tests membership in that list directly. -/

structure CageConfig where
  minSize : Nat
  maxSize : Nat
  allowSingleCell : Bool
deriving DecidableEq, Repr

/-- In-bounds orthogonal neighbors of a cell, in source direction order
(up, down, left, right), with the `0 ≤ r,c < size` bounds checks. -/
def dirNeighbors (size : Nat) (c : Cell) : List Cell :=
  (if 1 ≤ c.row ∧ c.row - 1 < size ∧ c.col < size then [⟨c.row - 1, c.col⟩] else []) ++
  (if c.row + 1 < size ∧ c.col < size then [⟨c.row + 1, c.col⟩] else []) ++
  (if 1 ≤ c.col ∧ c.row < size ∧ c.col - 1 < size then [⟨c.row, c.col - 1⟩] else []) ++
  (if c.col + 1 < size ∧ c.row < size then [⟨c.row, c.col + 1⟩] else [])

/-- Append a neighbor candidate if it is unclaimed, outside the current
cage, and unseen; the `seen` set is exactly the accumulated output. -/
def addNeighbor (visited cage acc : List Cell) (nb : Cell) : List Cell :=
  if nb ∈ visited ∨ nb ∈ cage ∨ nb ∈ acc then acc else acc ++ [nb]

/-- `getUnvisitedNeighbors(cageCells, size, visited, cageCellsSet)`. -/
def getUnvisitedNeighbors (cage : List Cell) (size : Nat) (visited : List Cell) :
    List Cell :=
  cage.foldl (fun acc c => (dirNeighbors size c).foldl (addNeighbor visited cage) acc) []

/-- The growth loop `while (cells.length < targetSize)`: each iteration
either breaks (no eligible neighbor) or appends exactly one cell, so `fuel`
(`targetSize - cells.length` at entry) counts the remaining iterations.
`rng.pick(list)` is `list[rng.nextInt(0, list.length - 1)]`. -/
def growCageLoop (size : Nat) (visited : List Cell) :
    Nat → List Cell → Nat → List Cell × Nat
  | 0, cells, rng => (cells, rng)
  | fuel + 1, cells, rng =>
    let neighbors := getUnvisitedNeighbors cells size visited
    if neighbors.isEmpty then (cells, rng)
    else
      let (idx, rng') := nextInt 0 (neighbors.length - 1) rng
      growCageLoop size visited fuel (cells ++ [neighbors.getD idx ⟨0, 0⟩]) rng'

/-- `growCage`: draw `targetSize = rng.nextInt(minSize, maxSize)`, then grow
from the start cell (the loop runs while `cells.length < targetSize`). -/
def growCage (startRow startCol size : Nat) (visited : List Cell) (rng : Nat)
    (minSize maxSize : Nat) : List Cell × Nat :=
  let (target, rng1) := nextInt minSize maxSize rng
  growCageLoop size visited (target - 1) [⟨startRow, startCol⟩] rng1

/-- The mutable state of the `generateCages` scan. -/
structure CageGenState where
  visited : List Cell
  cages : List Cage
  rng : Nat
  nextId : Nat

/-- One iteration of the row-major cell scan of `generateCages`: skip
visited cells, otherwise grow a cage with the placeholder clue
`{target: 0, operation: '+'}` and mark its cells visited. -/
def generateCagesStep (size minSize maxSize : Nat) (st : CageGenState) (cell : Cell) :
    CageGenState :=
  if cell ∈ st.visited then st
  else
    let (cells, rng') := growCage cell.row cell.col size st.visited st.rng minSize maxSize
    ⟨st.visited ++ cells, st.cages ++ [⟨st.nextId, cells, ⟨0, Op.add⟩⟩], rng', st.nextId + 1⟩

/-- `generateCages(size, rng, config)`.  The merged config's
`allowSingleCell` field is destructured but never used by the function
body.  Returns the cages and the advanced RNG state. -/
def generateCages (size : Nat) (rng : Nat) (config : CageConfig) : List Cage × Nat :=
  let st := (allCellsList size).foldl
    (generateCagesStep size config.minSize config.maxSize) ⟨[], [], rng, 0⟩
  (st.cages, st.rng)

/-- C10: for every size, RNG state and cage-size bounds, the cage list (and
the advanced RNG state) is the same whether `allowSingleCell` is true or
false: the flag never influences cage growth. -/
theorem generateCages_allowSingleCell_irrelevant
    (size rng minSize maxSize : Nat) (b b' : Bool) :
    generateCages size rng ⟨minSize, maxSize, b⟩ =
      generateCages size rng ⟨minSize, maxSize, b'⟩ := rfl

/-- Orthogonal adjacency of two cells. -/
def Adjacent (a b : Cell) : Prop :=
  (a.row = b.row ∧ (a.col + 1 = b.col ∨ b.col + 1 = a.col)) ∨
  (a.col = b.col ∧ (a.row + 1 = b.row ∨ b.row + 1 = a.row))

theorem adjacent_symm {a b : Cell} (h : Adjacent a b) : Adjacent b a := by
  unfold Adjacent at *
  tauto

/-- A cell list forms a single 4-connected region: every two of its cells
are joined by a path of orthogonally adjacent cells inside the list. -/
def ConnectedCells (l : List Cell) : Prop :=
  ∀ x ∈ l, ∀ y ∈ l,
    Relation.ReflTransGen (fun u v => u ∈ l ∧ v ∈ l ∧ Adjacent u v) x y

theorem connectedCells_singleton (c : Cell) : ConnectedCells [c] := by
  intro x hx y hy
  simp only [List.mem_singleton] at hx hy
  rw [hx, hy]

theorem connectedCells_append {l : List Cell} {b : Cell} (hconn : ConnectedCells l)
    (hadj : ∃ a ∈ l, Adjacent a b) : ConnectedCells (l ++ [b]) := by
  have hlift : ∀ {u v : Cell},
      Relation.ReflTransGen (fun u v => u ∈ l ∧ v ∈ l ∧ Adjacent u v) u v →
      Relation.ReflTransGen (fun u v => u ∈ l ++ [b] ∧ v ∈ l ++ [b] ∧ Adjacent u v) u v := by
    intro u v h
    refine Relation.ReflTransGen.mono ?_ h
    intro p q hpq
    exact ⟨List.mem_append_left _ hpq.1, List.mem_append_left _ hpq.2.1, hpq.2.2⟩
  obtain ⟨a, ha, hab⟩ := hadj
  intro x hx y hy
  have hbmem : b ∈ l ++ [b] := List.mem_append_right _ (List.mem_singleton_self b)
  rcases List.mem_append.mp hx with hxl | hxb <;>
    rcases List.mem_append.mp hy with hyl | hyb
  · exact hlift (hconn x hxl y hyl)
  · have hyb' : y = b := List.mem_singleton.mp hyb
    subst hyb'
    exact Relation.ReflTransGen.tail (hlift (hconn x hxl a ha))
      ⟨List.mem_append_left _ ha, hbmem, hab⟩
  · have hxb' : x = b := List.mem_singleton.mp hxb
    subst hxb'
    exact Relation.ReflTransGen.head
      ⟨hbmem, List.mem_append_left _ ha, adjacent_symm hab⟩
      (hlift (hconn a ha y hyl))
  · have hxb' : x = b := List.mem_singleton.mp hxb
    have hyb' : y = b := List.mem_singleton.mp hyb
    rw [hxb', hyb']

theorem mem_ite_single {P : Prop} [Decidable P] {x y : Cell}
    (h : y ∈ (if P then [x] else [])) : P ∧ y = x := by
  split at h
  · simp only [List.mem_singleton] at h
    exact ⟨by assumption, h⟩
  · simp at h

theorem dirNeighbors_mem {size : Nat} {c nb : Cell} (h : nb ∈ dirNeighbors size c) :
    nb.row < size ∧ nb.col < size ∧ Adjacent c nb := by
  unfold dirNeighbors at h
  simp only [List.mem_append] at h
  rcases h with ((h | h) | h) | h <;> obtain ⟨hp, rfl⟩ := mem_ite_single h
  · exact ⟨show c.row - 1 < size from hp.2.1, show c.col < size from hp.2.2,
      Or.inr ⟨rfl, Or.inr (show c.row - 1 + 1 = c.row by omega)⟩⟩
  · exact ⟨show c.row + 1 < size from hp.1, show c.col < size from hp.2,
      Or.inr ⟨rfl, Or.inl rfl⟩⟩
  · exact ⟨show c.row < size from hp.2.1, show c.col - 1 < size from hp.2.2,
      Or.inl ⟨rfl, Or.inr (show c.col - 1 + 1 = c.col by omega)⟩⟩
  · exact ⟨show c.row < size from hp.2, show c.col + 1 < size from hp.1,
      Or.inl ⟨rfl, Or.inl rfl⟩⟩

theorem getD_mem {l : List Cell} {i : Nat} (h : i < l.length) (d : Cell) :
    l.getD i d ∈ l := by
  rw [List.getD_eq_getElem l d h]
  exact List.getElem_mem h

theorem mem_foldl_addNeighbor (visited cage : List Cell) :
    ∀ (ds acc : List Cell) (x : Cell),
      x ∈ ds.foldl (addNeighbor visited cage) acc →
      x ∈ acc ∨ (x ∈ ds ∧ x ∉ visited ∧ x ∉ cage) := by
  intro ds
  induction ds with
  | nil => intro acc x h; exact Or.inl h
  | cons d ds ih =>
    intro acc x h
    rcases ih (addNeighbor visited cage acc d) x h with h1 | h1
    · unfold addNeighbor at h1
      split at h1
      · exact Or.inl h1
      · rcases List.mem_append.mp h1 with h2 | h2
        · exact Or.inl h2
        · have hx : x = d := List.mem_singleton.mp h2
          subst hx
          rename_i hcond
          push_neg at hcond
          exact Or.inr ⟨List.mem_cons_self _ _, hcond.1, hcond.2.1⟩
    · exact Or.inr ⟨List.mem_cons_of_mem _ h1.1, h1.2⟩

theorem mem_getUnvisitedNeighbors_outer (size : Nat) (visited cage : List Cell) :
    ∀ (cs acc : List Cell) (x : Cell),
      x ∈ cs.foldl (fun acc c => (dirNeighbors size c).foldl (addNeighbor visited cage) acc) acc →
      x ∈ acc ∨ (x ∉ visited ∧ x ∉ cage ∧ ∃ c ∈ cs, x ∈ dirNeighbors size c) := by
  intro cs
  induction cs with
  | nil => intro acc x h; exact Or.inl h
  | cons c cs ih =>
    intro acc x h
    rcases ih _ x h with h1 | h1
    · rcases mem_foldl_addNeighbor visited cage _ acc x h1 with h2 | h2
      · exact Or.inl h2
      · exact Or.inr ⟨h2.2.1, h2.2.2, c, List.mem_cons_self _ _, h2.1⟩
    · exact Or.inr ⟨h1.1, h1.2.1, h1.2.2.choose,
        List.mem_cons_of_mem _ h1.2.2.choose_spec.1, h1.2.2.choose_spec.2⟩

theorem mem_getUnvisitedNeighbors {cage : List Cell} {size : Nat} {visited : List Cell}
    {x : Cell} (h : x ∈ getUnvisitedNeighbors cage size visited) :
    x ∉ visited ∧ x ∉ cage ∧ ∃ c ∈ cage, x ∈ dirNeighbors size c := by
  rcases mem_getUnvisitedNeighbors_outer size visited cage cage [] x h with h1 | h1
  · simp at h1
  · exact h1

theorem foldl_addNeighbor_ne_nil (visited cage : List Cell) :
    ∀ (ds acc : List Cell), acc ≠ [] → ds.foldl (addNeighbor visited cage) acc ≠ [] := by
  intro ds
  induction ds with
  | nil => intro acc h; exact h
  | cons d ds ih =>
    intro acc h
    refine ih _ ?_
    unfold addNeighbor
    split
    · exact h
    · simp

theorem foldl_addNeighbor_hit (visited cage : List Cell) :
    ∀ (ds acc : List Cell) (nb : Cell), nb ∈ ds → nb ∉ visited → nb ∉ cage →
      ds.foldl (addNeighbor visited cage) acc ≠ [] := by
  intro ds
  induction ds with
  | nil => intro acc nb h; simp at h
  | cons d ds ih =>
    intro acc nb hmem hv hc
    rcases List.mem_cons.mp hmem with h1 | h1
    · subst h1
      refine foldl_addNeighbor_ne_nil visited cage ds _ ?_
      unfold addNeighbor
      split
      · rename_i hcond
        rcases hcond with h | h | h
        · exact absurd h hv
        · exact absurd h hc
        · intro hnil
          rw [hnil] at h
          simp at h
      · simp
    · exact ih _ nb h1 hv hc

theorem outer_fold_ne_nil (size : Nat) (visited cage : List Cell) :
    ∀ (cs acc : List Cell), acc ≠ [] →
      cs.foldl (fun acc c => (dirNeighbors size c).foldl (addNeighbor visited cage) acc) acc ≠ [] := by
  intro cs
  induction cs with
  | nil => intro acc h; exact h
  | cons c cs ih =>
    intro acc h
    exact ih _ (foldl_addNeighbor_ne_nil visited cage _ _ h)

theorem outer_fold_hit (size : Nat) (visited cage : List Cell) {c nb : Cell}
    (hnb : nb ∈ dirNeighbors size c) (hv : nb ∉ visited) (hg : nb ∉ cage) :
    ∀ (cs acc : List Cell), c ∈ cs →
      cs.foldl (fun acc c => (dirNeighbors size c).foldl (addNeighbor visited cage) acc) acc ≠ [] := by
  intro cs
  induction cs with
  | nil => intro acc h; simp at h
  | cons c' cs ih =>
    intro acc hmem
    rcases List.mem_cons.mp hmem with h1 | h1
    · subst h1
      exact outer_fold_ne_nil size visited cage cs _
        (foldl_addNeighbor_hit visited cage _ acc nb hnb hv hg)
    · exact ih _ h1

theorem getUnvisitedNeighbors_eq_nil {cage : List Cell} {size : Nat} {visited : List Cell}
    (h : getUnvisitedNeighbors cage size visited = []) :
    ∀ c ∈ cage, ∀ nb ∈ dirNeighbors size c, nb ∈ visited ∨ nb ∈ cage := by
  intro c hc nb hnb
  by_contra hcon
  push_neg at hcon
  exact outer_fold_hit size visited cage hnb hcon.1 hcon.2 cage [] hc h

/-- The invariant of the growing cage: nonempty, duplicate-free, disjoint
from the claimed cells, in bounds, 4-connected. -/
def GrowInv (size : Nat) (visited cells : List Cell) : Prop :=
  cells ≠ [] ∧ cells.Nodup ∧
  (∀ c ∈ cells, c ∉ visited ∧ c.row < size ∧ c.col < size) ∧
  ConnectedCells cells

theorem growCageLoop_succ (size : Nat) (visited : List Cell) (fuel : Nat)
    (cells : List Cell) (rng : Nat) :
    growCageLoop size visited (fuel + 1) cells rng =
      if (getUnvisitedNeighbors cells size visited).isEmpty then (cells, rng)
      else growCageLoop size visited fuel
        (cells ++ [(getUnvisitedNeighbors cells size visited).getD
          ((nextInt 0 ((getUnvisitedNeighbors cells size visited).length - 1) rng).1) ⟨0, 0⟩])
        ((nextInt 0 ((getUnvisitedNeighbors cells size visited).length - 1) rng).2) := rfl

theorem picked_mem {l : List Cell} (h : l.isEmpty = false) (rng : Nat) :
    l.getD ((nextInt 0 (l.length - 1) rng).1) ⟨0, 0⟩ ∈ l := by
  have hlen : 1 ≤ l.length := by
    cases l
    · simp at h
    · simp
  have hidx : (nextInt 0 (l.length - 1) rng).1 ≤ l.length - 1 :=
    nextInt_le rng (Nat.zero_le _)
  exact getD_mem (by omega) _

theorem growInv_extend {size : Nat} {visited cells : List Cell}
    (h : GrowInv size visited cells) {nb : Cell}
    (hnb : nb ∈ getUnvisitedNeighbors cells size visited) :
    GrowInv size visited (cells ++ [nb]) := by
  obtain ⟨hne, hnd, hprop, hconn⟩ := h
  obtain ⟨hv, hc, c, hcmem, hdir⟩ := mem_getUnvisitedNeighbors hnb
  obtain ⟨hr, hcl, hadj⟩ := dirNeighbors_mem hdir
  refine ⟨by simp, ?_, ?_, ?_⟩
  · rw [List.nodup_append]
    refine ⟨hnd, List.nodup_singleton nb, ?_⟩
    intro x hx hx2
    rw [List.mem_singleton.mp hx2] at hx
    exact hc hx
  · intro x hx
    rcases List.mem_append.mp hx with h1 | h1
    · exact hprop x h1
    · rw [List.mem_singleton.mp h1]
      exact ⟨hv, hr, hcl⟩
  · exact connectedCells_append hconn ⟨c, hcmem, hadj⟩

theorem growCageLoop_inv (size : Nat) (visited : List Cell) :
    ∀ (fuel : Nat) (cells : List Cell) (rng : Nat),
      GrowInv size visited cells →
      GrowInv size visited (growCageLoop size visited fuel cells rng).1 := by
  intro fuel
  induction fuel with
  | zero => intro cells rng h; exact h
  | succ fuel ih =>
    intro cells rng h
    rw [growCageLoop_succ]
    by_cases hne : (getUnvisitedNeighbors cells size visited).isEmpty
    · rw [if_pos hne]; exact h
    · rw [if_neg hne]
      exact ih _ _ (growInv_extend h (picked_mem (Bool.not_eq_true _ ▸ hne) rng))

theorem growCageLoop_len (size : Nat) (visited : List Cell) :
    ∀ (fuel : Nat) (cells : List Cell) (rng : Nat),
      (growCageLoop size visited fuel cells rng).1.length ≤ cells.length + fuel := by
  intro fuel
  induction fuel with
  | zero => intro cells rng; simp [growCageLoop]
  | succ fuel ih =>
    intro cells rng
    rw [growCageLoop_succ]
    by_cases hne : (getUnvisitedNeighbors cells size visited).isEmpty
    · rw [if_pos hne]
      show cells.length ≤ cells.length + (fuel + 1)
      omega
    · rw [if_neg hne]
      have := ih (cells ++ [(getUnvisitedNeighbors cells size visited).getD
        ((nextInt 0 ((getUnvisitedNeighbors cells size visited).length - 1) rng).1) ⟨0, 0⟩])
        ((nextInt 0 ((getUnvisitedNeighbors cells size visited).length - 1) rng).2)
      simp only [List.length_append, List.length_singleton] at this
      omega

theorem growCageLoop_sub (size : Nat) (visited : List Cell) :
    ∀ (fuel : Nat) (cells : List Cell) (rng : Nat) (x : Cell), x ∈ cells →
      x ∈ (growCageLoop size visited fuel cells rng).1 := by
  intro fuel
  induction fuel with
  | zero => intro cells rng x hx; exact hx
  | succ fuel ih =>
    intro cells rng x hx
    rw [growCageLoop_succ]
    by_cases hne : (getUnvisitedNeighbors cells size visited).isEmpty
    · rw [if_pos hne]; exact hx
    · rw [if_neg hne]
      exact ih _ _ x (List.mem_append_left _ hx)

theorem growCageLoop_trapped (size : Nat) (visited : List Cell) :
    ∀ (fuel : Nat) (cells : List Cell) (rng : Nat),
      (growCageLoop size visited fuel cells rng).1.length < cells.length + fuel →
      getUnvisitedNeighbors (growCageLoop size visited fuel cells rng).1 size visited = [] := by
  intro fuel
  induction fuel with
  | zero =>
    intro cells rng h
    simp [growCageLoop] at h
  | succ fuel ih =>
    intro cells rng h
    rw [growCageLoop_succ] at h ⊢
    by_cases hne : (getUnvisitedNeighbors cells size visited).isEmpty
    · rw [if_pos hne] at h ⊢
      exact List.isEmpty_iff.mp hne
    · rw [if_neg hne] at h ⊢
      apply ih
      simp only [List.length_append, List.length_singleton] at h ⊢
      omega

theorem growCage_spec (startRow startCol size : Nat) (visited : List Cell)
    (rng minSize maxSize : Nat) (h1 : 1 ≤ minSize) (h2 : minSize ≤ maxSize)
    (hr : startRow < size) (hc : startCol < size)
    (hv : Cell.mk startRow startCol ∉ visited) :
    GrowInv size visited (growCage startRow startCol size visited rng minSize maxSize).1 ∧
    Cell.mk startRow startCol ∈ (growCage startRow startCol size visited rng minSize maxSize).1 ∧
    (growCage startRow startCol size visited rng minSize maxSize).1.length ≤ maxSize ∧
    ((growCage startRow startCol size visited rng minSize maxSize).1.length < minSize →
      getUnvisitedNeighbors (growCage startRow startCol size visited rng minSize maxSize).1
        size visited = []) := by
  have htgt1 : minSize ≤ (nextInt minSize maxSize rng).1 := nextInt_ge _ _ _
  have htgt2 : (nextInt minSize maxSize rng).1 ≤ maxSize := nextInt_le _ h2
  have hgc : growCage startRow startCol size visited rng minSize maxSize =
      growCageLoop size visited ((nextInt minSize maxSize rng).1 - 1)
        [⟨startRow, startCol⟩] (nextInt minSize maxSize rng).2 := rfl
  rw [hgc]
  have hstart : GrowInv size visited [⟨startRow, startCol⟩] := by
    refine ⟨by simp, List.nodup_singleton _, ?_, connectedCells_singleton _⟩
    intro c hcm
    rw [List.mem_singleton.mp hcm]
    exact ⟨hv, hr, hc⟩
  refine ⟨growCageLoop_inv size visited _ _ _ hstart,
    growCageLoop_sub size visited _ _ _ _ (List.mem_singleton_self _), ?_, ?_⟩
  · have := growCageLoop_len size visited ((nextInt minSize maxSize rng).1 - 1)
      [⟨startRow, startCol⟩] (nextInt minSize maxSize rng).2
    simp only [List.length_singleton] at this
    omega
  · intro hlen
    apply growCageLoop_trapped
    simp only [List.length_singleton]
    omega

/-- Cells of all cages, in cage order. -/
def cellsOfCages (cages : List Cage) : List Cell := cages.flatMap (fun cg => cg.cells)

/-- The invariant of the `generateCages` row-major scan: visited is exactly
the claimed cells; cages are pairwise disjoint, nonempty, duplicate-free,
in bounds, connected and no larger than `maxSize`; a cage below `minSize`
was trapped against cells claimed by itself or earlier cages. -/
def GenInv (size minSize maxSize : Nat) (st : CageGenState) : Prop :=
  (∀ c, c ∈ st.visited ↔ c ∈ cellsOfCages st.cages) ∧
  List.Pairwise (fun a b => ∀ c, c ∈ a.cells → c ∉ b.cells) st.cages ∧
  (∀ cg ∈ st.cages, cg.cells ≠ [] ∧ cg.cells.Nodup ∧
    (∀ c ∈ cg.cells, c.row < size ∧ c.col < size) ∧
    ConnectedCells cg.cells ∧ cg.cells.length ≤ maxSize) ∧
  (∀ (k : Nat) (hk : k < st.cages.length),
    (st.cages.get ⟨k, hk⟩).cells.length < minSize →
    ∀ c ∈ (st.cages.get ⟨k, hk⟩).cells, ∀ nb ∈ dirNeighbors size c,
      nb ∈ cellsOfCages (st.cages.take (k + 1)))

theorem generateCagesStep_eq (size minSize maxSize : Nat) (st : CageGenState)
    (cell : Cell) :
    generateCagesStep size minSize maxSize st cell =
      if cell ∈ st.visited then st
      else
        ⟨st.visited ++ (growCage cell.row cell.col size st.visited st.rng minSize maxSize).1,
          st.cages ++ [⟨st.nextId,
            (growCage cell.row cell.col size st.visited st.rng minSize maxSize).1,
            ⟨0, Op.add⟩⟩],
          (growCage cell.row cell.col size st.visited st.rng minSize maxSize).2,
          st.nextId + 1⟩ := by
  unfold generateCagesStep
  split <;> rfl

theorem cellsOfCages_append (l₁ l₂ : List Cage) :
    cellsOfCages (l₁ ++ l₂) = cellsOfCages l₁ ++ cellsOfCages l₂ := by
  simp [cellsOfCages]

theorem genInv_step (size minSize maxSize : Nat) (h1 : 1 ≤ minSize) (h2 : minSize ≤ maxSize)
    {st : CageGenState} (hst : GenInv size minSize maxSize st)
    {cell : Cell} (hcell : cell.row < size ∧ cell.col < size) :
    GenInv size minSize maxSize (generateCagesStep size minSize maxSize st cell) ∧
    cell ∈ (generateCagesStep size minSize maxSize st cell).visited ∧
    (∀ c ∈ st.visited, c ∈ (generateCagesStep size minSize maxSize st cell).visited) := by
  rw [generateCagesStep_eq]
  by_cases hv : cell ∈ st.visited
  · rw [if_pos hv]
    exact ⟨hst, hv, fun c hc => hc⟩
  · rw [if_neg hv]
    obtain ⟨hiff, hpw, hcgs, htrap⟩ := hst
    obtain ⟨⟨hne, hnd, hprops, hconn⟩, hstart, hlen, htrapped⟩ :=
      growCage_spec cell.row cell.col size st.visited st.rng minSize maxSize
        h1 h2 hcell.1 hcell.2 hv
    set res := (growCage cell.row cell.col size st.visited st.rng minSize maxSize).1 with hres
    refine ⟨⟨?_, ?_, ?_, ?_⟩, ?_, ?_⟩
    · intro c
      rw [cellsOfCages_append, List.mem_append, List.mem_append]
      constructor
      · rintro (h | h)
        · exact Or.inl ((hiff c).mp h)
        · refine Or.inr ?_
          simp [cellsOfCages, h]
      · rintro (h | h)
        · exact Or.inl ((hiff c).mpr h)
        · refine Or.inr ?_
          simpa [cellsOfCages] using h
    · rw [List.pairwise_append]
      refine ⟨hpw, List.pairwise_singleton _ _, ?_⟩
      intro a ha b hb c hca hcb
      have hcv : c ∈ st.visited := (hiff c).mpr (by
        rw [cellsOfCages, List.mem_flatMap]; exact ⟨a, ha, hca⟩)
      rw [List.mem_singleton.mp hb] at hcb
      simp only at hcb
      exact (hprops c hcb).1 hcv
    · intro cg hcg
      rcases List.mem_append.mp hcg with h | h
      · exact hcgs cg h
      · rw [List.mem_singleton.mp h]
        exact ⟨hne, hnd, fun c hc => (hprops c hc).2, hconn, hlen⟩
    · intro k hk hsmall c hcm nb hnb
      rw [List.length_append, List.length_singleton] at hk
      by_cases hklt : k < st.cages.length
      · have hget : ((st.cages ++ [(⟨st.nextId, res, ⟨0, Op.add⟩⟩ : Cage)]).get
            ⟨k, by rw [List.length_append, List.length_singleton]; omega⟩) =
            st.cages.get ⟨k, hklt⟩ := List.get_append_left _ _ _
        rw [hget] at hsmall hcm
        have htk : (st.cages ++ [(⟨st.nextId, res, ⟨0, Op.add⟩⟩ : Cage)]).take (k + 1) =
            st.cages.take (k + 1) := List.take_append_of_le_length (by omega)
        rw [htk]
        exact htrap k hklt hsmall c hcm nb hnb
      · have hkeq : k = st.cages.length := by omega
        subst hkeq
        have hget : ((st.cages ++ [(⟨st.nextId, res, ⟨0, Op.add⟩⟩ : Cage)]).get
            ⟨st.cages.length, by rw [List.length_append, List.length_singleton]; omega⟩) =
            (⟨st.nextId, res, ⟨0, Op.add⟩⟩ : Cage) := by
          rw [List.get_append_right] <;> simp
        rw [hget] at hsmall hcm
        simp only at hsmall hcm
        have hnil := htrapped hsmall
        have := getUnvisitedNeighbors_eq_nil hnil c hcm nb hnb
        have htake : (st.cages ++ [(⟨st.nextId, res, ⟨0, Op.add⟩⟩ : Cage)]).take
            (st.cages.length + 1) = st.cages ++ [(⟨st.nextId, res, ⟨0, Op.add⟩⟩ : Cage)] := by
          apply List.take_of_length_le
          rw [List.length_append, List.length_singleton]
        rw [htake, cellsOfCages_append, List.mem_append]
        rcases this with h | h
        · exact Or.inl ((hiff nb).mp h)
        · exact Or.inr (by simp [cellsOfCages, h])
    · exact List.mem_append_right _ hstart
    · intro c hc
      exact List.mem_append_left _ hc

theorem genInv_fold (size minSize maxSize : Nat) (h1 : 1 ≤ minSize) (h2 : minSize ≤ maxSize) :
    ∀ (cs : List Cell) (st : CageGenState),
      GenInv size minSize maxSize st →
      (∀ c ∈ cs, c.row < size ∧ c.col < size) →
      GenInv size minSize maxSize (cs.foldl (generateCagesStep size minSize maxSize) st) ∧
      (∀ c ∈ cs, c ∈ (cs.foldl (generateCagesStep size minSize maxSize) st).visited) ∧
      (∀ c ∈ st.visited, c ∈ (cs.foldl (generateCagesStep size minSize maxSize) st).visited) := by
  intro cs
  induction cs with
  | nil =>
    intro st hst hb
    exact ⟨hst, by simp, fun c hc => hc⟩
  | cons x cs ih =>
    intro st hst hb
    have hx := hb x (List.mem_cons_self _ _)
    obtain ⟨hst', hxv, hmono⟩ := genInv_step size minSize maxSize h1 h2 hst hx
    obtain ⟨hfin, hcs, hmono2⟩ :=
      ih _ hst' (fun c hc => hb c (List.mem_cons_of_mem _ hc))
    refine ⟨hfin, ?_, fun c hc => hmono2 c (hmono c hc)⟩
    intro c hc
    rcases List.mem_cons.mp hc with rfl | h
    · exact hmono2 c hxv
    · exact hcs c h

theorem mem_allCellsList {size : Nat} {c : Cell} :
    c ∈ allCellsList size ↔ c.row < size ∧ c.col < size := by
  cases c with
  | mk r col =>
    simp only [allCellsList, List.mem_flatMap, List.mem_map, List.mem_range]
    constructor
    · rintro ⟨a, ha, b, hb, heq⟩
      cases heq
      exact ⟨ha, hb⟩
    · rintro ⟨hr, hcol⟩
      exact ⟨r, hr, col, hcol, rfl⟩

/-- C3: for every size ≥ 1, every seed, every bounds pair `1 ≤ min ≤ max`
(and either `allowSingleCell` flag): the cages cover exactly the full
`N × N` grid; no cell appears in two cages, nor twice in one; every cage is
a single 4-connected region of at most `max` cells; and a cage smaller than
`min` is trapped — every in-bounds orthogonal neighbor of its cells already
belonged to it or to an earlier cage when its growth stopped. -/
theorem generateCages_spec (size : Nat) (seed : RNGSeed) (minSize maxSize : Nat) (b : Bool)
    (hsz : 1 ≤ size) (h1 : 1 ≤ minSize) (h2 : minSize ≤ maxSize) :
    (∀ c : Cell,
      c ∈ cellsOfCages (generateCages size (createRNG seed) ⟨minSize, maxSize, b⟩).1 ↔
        (c.row < size ∧ c.col < size)) ∧
    List.Pairwise (fun a b => ∀ c, c ∈ a.cells → c ∉ b.cells)
      (generateCages size (createRNG seed) ⟨minSize, maxSize, b⟩).1 ∧
    (∀ cg ∈ (generateCages size (createRNG seed) ⟨minSize, maxSize, b⟩).1,
      cg.cells.Nodup ∧ ConnectedCells cg.cells ∧ cg.cells.length ≤ maxSize) ∧
    (∀ (k : Nat)
      (hk : k < (generateCages size (createRNG seed) ⟨minSize, maxSize, b⟩).1.length),
      ((generateCages size (createRNG seed) ⟨minSize, maxSize, b⟩).1.get ⟨k, hk⟩).cells.length
          < minSize →
      ∀ c ∈ ((generateCages size (createRNG seed) ⟨minSize, maxSize, b⟩).1.get ⟨k, hk⟩).cells,
        ∀ nb ∈ dirNeighbors size c,
          nb ∈ cellsOfCages
            ((generateCages size (createRNG seed) ⟨minSize, maxSize, b⟩).1.take (k + 1))) := by
  have hinit : GenInv size minSize maxSize ⟨[], [], createRNG seed, 0⟩ := by
    refine ⟨by simp [cellsOfCages], List.Pairwise.nil, by simp, ?_⟩
    intro k hk
    simp at hk
  obtain ⟨⟨hiff, hpw, hcg, htrap⟩, hcov, _⟩ :=
    genInv_fold size minSize maxSize h1 h2 (allCellsList size)
      ⟨[], [], createRNG seed, 0⟩ hinit (fun c hc => mem_allCellsList.mp hc)
  have heq : (generateCages size (createRNG seed) ⟨minSize, maxSize, b⟩).1 =
      ((allCellsList size).foldl (generateCagesStep size minSize maxSize)
        ⟨[], [], createRNG seed, 0⟩).cages := rfl
  rw [heq]
  refine ⟨?_, hpw, ?_, htrap⟩
  · intro c
    constructor
    · intro hcm
      rw [cellsOfCages, List.mem_flatMap] at hcm
      obtain ⟨cg, hcg2, hcc⟩ := hcm
      exact ((hcg cg hcg2).2.2.1) c hcc
    · intro hb2
      exact (hiff c).mp (hcov c (mem_allCellsList.mpr hb2))
  · intro cg hcgm
    obtain ⟨_, hnd, _, hconn, hlen⟩ := hcg cg hcgm
    exact ⟨hnd, hconn, hlen⟩

theorem generateCages_spec_witness :
    1 ≤ 2 ∧ 1 ≤ 1 ∧ (1 : Nat) ≤ 2 ∧
      (∀ c : Cell,
        c ∈ cellsOfCages (generateCages 2 (createRNG (RNGSeed.num 7)) ⟨1, 2, true⟩).1 ↔
          (c.row < 2 ∧ c.col < 2)) :=
  ⟨by decide, by decide, by decide,
    (generateCages_spec 2 (RNGSeed.num 7) 1 2 true (by decide) (by decide) (by decide)).1⟩

/-! ## Puzzle assembler (`PuzzleGenerator.ts`) -/

/-- `assignClues`: recompute each cage's clue from the solution values (the
source's `rng` parameter is unused by the loop). -/
def assignClues (cages : List Cage) (solution : Nat → Nat → Nat)
    (operations : List Op) : List Cage :=
  cages.map (fun cg => ⟨cg.id, cg.cells, calculateClue cg.cells solution operations⟩)

structure PuzzleConfig where
  size : Nat
  difficulty : Difficulty
  seed : RNGSeed

/-- `generatePuzzleSync(config)`, with a caller-supplied seed (an absent
seed falls back to `Date.now().toString()` in the source and is outside the
determinism claim).  The `Date.now()` read by `generatePuzzleId` is the
`timestamp` parameter; it enters only the puzzle id. -/
def generatePuzzleSync (config : PuzzleConfig) (timestamp : Nat) : Puzzle :=
  let rng0 := createRNG config.seed
  let preset := getDifficultyPreset config.difficulty
  let ls := generateLatinSquare config.size rng0
  let gc := generateCages config.size ls.2
    ⟨preset.minCageSize, preset.maxCageSize, decide (0 < preset.singleCellRate)⟩
  let cages' := assignClues gc.1 ls.1 preset.operations
  let idRand := (nextInt 1000 9999 gc.2).1
  { id := ⟨config.difficulty, config.size, timestamp, idRand⟩
    size := config.size
    difficulty := config.difficulty
    cages := cages'
    solution := ls.1
    seed := some config.seed }

/-- C4: two runs of the synchronous generation pipeline with the same size,
difficulty preset and seed — even at different wall-clock instants, which
enter only the puzzle id — produce the identical Latin square and the
identical cage list (same cages, same cell order, same clue per cage):
solution, cages and clues are a function of `(size, preset, seed)` alone. -/
theorem generatePuzzleSync_deterministic (config : PuzzleConfig) (t t' : Nat) :
    (generatePuzzleSync config t).solution = (generatePuzzleSync config t').solution ∧
    (generatePuzzleSync config t).cages = (generatePuzzleSync config t').cages :=
  ⟨rfl, rfl⟩

/-! ## Constraint solver (solver module of `LatinSquare.ts`)

The solver's grid starts empty and is mutated with a strict discipline:
whenever the search sits at `cellIndex`, every cell with row-major index
`≥ cellIndex` holds `0`.  The grid is therefore represented by the list
`asg` of the values already assigned to cells `0 .. cellIndex - 1` in
row-major order; a lookup beyond the list reads `0` (empty). -/

/-- `grid[row][col]` in the flat representation. -/
def gridGet (asg : List Nat) (n row col : Nat) : Nat := asg.getD (row * n + col) 0

/-- `isValidPlacement(grid, row, col, value, size)`: the value appears in no
other cell of the row or of the column. -/
def isValidPlacement (asg : List Nat) (n row col value : Nat) : Bool :=
  ((List.range n).all fun c => c == col || gridGet asg n row c != value) &&
  ((List.range n).all fun r => r == row || gridGet asg n r col != value)

/-- The cage's cell values on the current grid (in cage cell order; `0` is
an empty cell). -/
def cageCellValues (n : Nat) (cage : Cage) (asg : List Nat) : List Nat :=
  cage.cells.map (fun c => gridGet asg n c.row c.col)

/-- `isPartialCageValid`: the conservative feasibility check on the
nonzero values collected so far. -/
def isPartialCageValid (cage : Cage) (values : List Nat) : Bool :=
  match cage.clue.operation with
  | Op.none => values.length == 0 || values.getD 0 0 == cage.clue.target
  | Op.add => decide (values.foldl (· + ·) 0 ≤ cage.clue.target)
  | Op.sub => true
  | Op.mul => decide (values.foldl (· * ·) 1 ≤ cage.clue.target)
  | Op.div => true

/-- `isFullCageValid` (same arithmetic as `Validator.validateCage`). -/
def isFullCageValid (cage : Cage) (values : List Nat) : Bool :=
  match cage.clue.operation with
  | Op.none => values.length == 1 && values.getD 0 0 == cage.clue.target
  | Op.add => values.foldl (· + ·) 0 == cage.clue.target
  | Op.sub => values.length == 2 &&
      (Nat.max (values.getD 0 0) (values.getD 1 0)
        - Nat.min (values.getD 0 0) (values.getD 1 0)) == cage.clue.target
  | Op.mul => values.foldl (· * ·) 1 == cage.clue.target
  | Op.div => values.length == 2 &&
      (Nat.min (values.getD 0 0) (values.getD 1 0) != 0) &&
      (Nat.max (values.getD 0 0) (values.getD 1 0)
        == cage.clue.target * Nat.min (values.getD 0 0) (values.getD 1 0))

/-- `isCageSatisfied(cage, grid, allowPartial)`: collect the nonzero values;
an empty cell routes to the partial check, otherwise the full check runs. -/
def isCageSatisfied (n : Nat) (cage : Cage) (asg : List Nat) (allowPartial : Bool) : Bool :=
  let cellVals := cageCellValues n cage asg
  let values := cellVals.filter (fun v => v != 0)
  let hasEmpty := cellVals.any (fun v => v == 0)
  if hasEmpty then (if allowPartial then isPartialCageValid cage values else true)
  else isFullCageValid cage values

/-- `getCageForCell`: the first cage of the list containing the cell. -/
def getCageForCell (cages : List Cage) (row col : Nat) : Option Cage :=
  cages.find? (fun cg => cg.cells.any (fun c => c.row == row && c.col == col))

/-- The candidate values `1 .. size` in loop order. -/
def valueCandidates (n : Nat) : List Nat := (List.range n).map (· + 1)

/-- The acceptance test of one step of `countSolutions` (inside
`hasUniqueSolution`): row/column check on the current grid, then the cage
feasibility check with the candidate tentatively placed; a cell with no
containing cage passes (`!cage || isCageSatisfied(...)`). -/
def countPlaceOK (p : Puzzle) (asg : List Nat) (v : Nat) : Bool :=
  isValidPlacement asg p.size (asg.length / p.size) (asg.length % p.size) v &&
    (match getCageForCell p.cages (asg.length / p.size) (asg.length % p.size) with
     | Option.none => true
     | some cg => isCageSatisfied p.size cg (asg ++ [v]) true)

/-- The acceptance test of one step of `backtrack` (inside `solvePuzzle`):
identical, except that a cell with no containing cage blocks recursion
(`cage && isCageSatisfied(...)`). -/
def solvePlaceOK (p : Puzzle) (asg : List Nat) (v : Nat) : Bool :=
  isValidPlacement asg p.size (asg.length / p.size) (asg.length % p.size) v &&
    (match getCageForCell p.cages (asg.length / p.size) (asg.length % p.size) with
     | Option.none => false
     | some cg => isCageSatisfied p.size cg (asg ++ [v]) true)

/-- The value loop of `countSolutions` at cell `asg.length`, with the
running `solutionCount` threaded through.  A child call whose count reaches
2 returns `true` in the source, which aborts every enclosing loop — here
the count is returned and `2 ≤ c'` triggers the same immediate stop. -/
def countAux (p : Puzzle) (asg : List Nat) (vals : List Nat) (count : Nat) : Nat :=
  match vals with
  | [] => count
  | v :: rest =>
    if countPlaceOK p asg v then
      let c' :=
        if p.size * p.size ≤ asg.length + 1 then count + 1
        else countAux p (asg ++ [v]) (valueCandidates p.size) count
      if 2 ≤ c' then c' else countAux p asg rest c'
    else countAux p asg rest count
termination_by (p.size * p.size - asg.length, vals.length)
decreasing_by
  all_goals simp only [List.length_append, List.length_singleton, List.length_cons]
  · apply Prod.Lex.left
    omega
  · apply Prod.Lex.right
    omega
  · apply Prod.Lex.right
    omega

/-- The value loop of `backtrack` at cell `asg.length`: the first success
propagates up unchanged. -/
def solveAux (p : Puzzle) (asg : List Nat) (vals : List Nat) : Option (List Nat) :=
  match vals with
  | [] => Option.none
  | v :: rest =>
    if solvePlaceOK p asg v then
      if p.size * p.size ≤ asg.length + 1 then some (asg ++ [v])
      else
        match solveAux p (asg ++ [v]) (valueCandidates p.size) with
        | some g => some g
        | Option.none => solveAux p asg rest
    else solveAux p asg rest
termination_by (p.size * p.size - asg.length, vals.length)
decreasing_by
  all_goals simp only [List.length_append, List.length_singleton, List.length_cons]
  · apply Prod.Lex.left
    omega
  · apply Prod.Lex.right
    omega
  · apply Prod.Lex.right
    omega

/-- `solvePuzzle`: run `backtrack` from the empty grid (a `0×0` grid is
already full and is returned as-is). -/
def solvePuzzle (p : Puzzle) : Option (List Nat) :=
  if p.size * p.size = 0 then some [] else solveAux p [] (valueCandidates p.size)

/-- The final `solutionCount` of `countSolutions(0)` from the empty grid. -/
def countSolutions (p : Puzzle) : Nat :=
  if p.size * p.size = 0 then 1 else countAux p [] (valueCandidates p.size) 0

/-- `hasUniqueSolution` resolves `solutionCount === 1` (the `setTimeout`
deferral merely schedules the synchronous count). -/
def hasUniqueSolution (p : Puzzle) : Bool := countSolutions p == 1

/-- All row-major assignments of `k` cells over the values `1..n`. -/
def allAssignments (n : Nat) : Nat → List (List Nat)
  | 0 => [[]]
  | k + 1 => (valueCandidates n).flatMap (fun v => (allAssignments n k).map (fun t => v :: t))

/-- A full assignment satisfying every check of the search: full length,
values in `1..n`, the row/column check at every cell, and every cage
satisfied (on a full in-bounds grid `isCageSatisfied` is the exact check). -/
def isSolutionList (p : Puzzle) (h : List Nat) : Bool :=
  (h.length == p.size * p.size) &&
  (h.all fun v => decide (1 ≤ v) && decide (v ≤ p.size)) &&
  ((List.range (p.size * p.size)).all fun i =>
    isValidPlacement h p.size (i / p.size) (i % p.size) (h.getD i 0)) &&
  (p.cages.all fun cg => isCageSatisfied p.size cg h true)

/-- The number of full assignments satisfying the search's checks. -/
def numSolutions (p : Puzzle) : Nat :=
  ((allAssignments p.size (p.size * p.size)).filter (fun h => isSolutionList p h)).length

/-- The data-model invariant of a well-formed cage layout: every cage is
nonempty with in-bounds cells, and no cell lies in two cages. -/
def PuzzleWF (p : Puzzle) : Prop :=
  (∀ cg ∈ p.cages, cg.cells ≠ [] ∧ ∀ c ∈ cg.cells, c.row < p.size ∧ c.col < p.size) ∧
  List.Pairwise (fun a b => ∀ c, c ∈ a.cells → c ∉ b.cells) p.cages

instance PuzzleWF_decidable (p : Puzzle) : Decidable (PuzzleWF p) := by
  unfold PuzzleWF
  infer_instance

theorem mem_valueCandidates {n v : Nat} : v ∈ valueCandidates n ↔ 1 ≤ v ∧ v ≤ n := by
  simp only [valueCandidates, List.mem_map, List.mem_range]
  constructor
  · rintro ⟨a, ha, rfl⟩
    omega
  · rintro ⟨h1, h2⟩
    exact ⟨v - 1, by omega, by omega⟩

theorem valueCandidates_nodup (n : Nat) : (valueCandidates n).Nodup :=
  (List.nodup_range n).map (fun a b h => by omega)

theorem mem_allAssignments {n : Nat} : ∀ {k : Nat} {h : List Nat},
    h ∈ allAssignments n k ↔ h.length = k ∧ ∀ v ∈ h, v ∈ valueCandidates n := by
  intro k
  induction k with
  | zero =>
    intro h
    simp only [allAssignments, List.mem_singleton]
    constructor
    · rintro rfl
      simp
    · rintro ⟨h0, _⟩
      exact List.length_eq_zero.mp h0
  | succ k ih =>
    intro h
    simp only [allAssignments, List.mem_flatMap, List.mem_map]
    constructor
    · rintro ⟨v, hv, t, ht, rfl⟩
      obtain ⟨hl, hall⟩ := ih.mp ht
      refine ⟨by simp [hl], ?_⟩
      intro w hw
      rcases List.mem_cons.mp hw with rfl | hw2
      · exact hv
      · exact hall w hw2
    · rintro ⟨hl, hall⟩
      cases h with
      | nil => simp at hl
      | cons v t =>
        refine ⟨v, hall v (List.mem_cons_self _ _), t, ?_, rfl⟩
        exact ih.mpr ⟨by simpa using hl, fun w hw => hall w (List.mem_cons_of_mem _ hw)⟩

theorem allAssignments_nodup (n : Nat) : ∀ k : Nat, (allAssignments n k).Nodup := by
  intro k
  induction k with
  | zero => simp [allAssignments]
  | succ k ih =>
    rw [allAssignments]
    rw [List.nodup_flatMap]
    constructor
    · intro v hv
      exact ih.map (fun t₁ t₂ ht => (List.cons.injEq v t₁ v t₂ ▸ ht).2)
    · have : ∀ (v w : Nat), v ≠ w →
          List.Disjoint ((allAssignments n k).map (fun t => v :: t))
            ((allAssignments n k).map (fun t => w :: t)) := by
        intro v w hvw x hx1 hx2
        rw [List.mem_map] at hx1 hx2
        obtain ⟨t1, _, rfl⟩ := hx1
        obtain ⟨t2, _, h2⟩ := hx2
        exact hvw ((List.cons.injEq _ _ _ _ ▸ h2.symm).1)
      refine List.Pairwise.imp_of_mem ?_ (valueCandidates_nodup n)
      intro v w _ _ hvw
      exact this v w hvw

theorem getD_take_lt {l : List Nat} {i j : Nat} (h : i < j) :
    (l.take j).getD i 0 = l.getD i 0 := by
  simp only [List.getD, List.get?_eq_getElem?, List.getElem?_take, if_pos h]

theorem getD_take_ge {l : List Nat} {i j : Nat} (h : j ≤ i) :
    (l.take j).getD i 0 = 0 :=
  List.getD_eq_default _ _ (le_trans (List.length_take_le j l) h)

theorem take_succ_getD {l : List Nat} {i : Nat} (h : i < l.length) :
    l.take (i + 1) = l.take i ++ [l.getD i 0] := by
  rw [List.getD_eq_getElem l 0 h, List.take_succ, List.getElem?_eq_getElem h]
  rfl

theorem getD_append_lt {l l₂ : List Nat} {i : Nat} (h : i < l.length) :
    (l ++ l₂).getD i 0 = l.getD i 0 := by
  simp only [List.getD, List.get?_eq_getElem?, List.getElem?_append_left h]

theorem getD_append_len {l : List Nat} {v : Nat} :
    (l ++ [v]).getD l.length 0 = v := by
  simp only [List.getD, List.get?_eq_getElem?, List.getElem?_append_right (le_refl l.length)]
  simp

theorem take_append_len {l : List Nat} {v : Nat} :
    (l ++ [v]).take l.length = l := by
  rw [List.take_append_of_le_length (le_refl _), List.take_length]

theorem cellIdx_div {n r c : Nat} (hc : c < n) : (r * n + c) / n = r := by
  rw [Nat.add_comm, Nat.add_mul_div_right _ _ (by omega : 0 < n),
    Nat.div_eq_of_lt hc, Nat.zero_add]

theorem cellIdx_mod {n r c : Nat} (hc : c < n) : (r * n + c) % n = c := by
  rw [Nat.add_comm, Nat.add_mul_mod_self_right, Nat.mod_eq_of_lt hc]

theorem cellIdx_lt {n r c : Nat} (hr : r < n) (hc : c < n) : r * n + c < n * n := by
  have h2 : (r + 1) * n ≤ n * n := Nat.mul_le_mul_right n hr
  rw [Nat.add_mul, Nat.one_mul] at h2
  omega

theorem idx_decomp {n i : Nat} (hn : 0 < n) : (i / n) * n + i % n = i := by
  rw [Nat.mul_comm]
  exact Nat.div_add_mod i n

theorem idx_div_lt {n i : Nat} (h : i < n * n) : i / n < n :=
  Nat.div_lt_of_lt_mul h

theorem isValidPlacement_iff {asg : List Nat} {n row col value : Nat} :
    isValidPlacement asg n row col value = true ↔
      ((∀ c, c < n → c ≠ col → gridGet asg n row c ≠ value) ∧
       (∀ r, r < n → r ≠ row → gridGet asg n r col ≠ value)) := by
  unfold isValidPlacement
  rw [Bool.and_eq_true, List.all_eq_true, List.all_eq_true]
  constructor
  · rintro ⟨h1, h2⟩
    constructor
    · intro c hc hne
      have := h1 c (List.mem_range.mpr hc)
      rw [Bool.or_eq_true, beq_iff_eq, bne_iff_ne] at this
      tauto
    · intro r hr hne
      have := h2 r (List.mem_range.mpr hr)
      rw [Bool.or_eq_true, beq_iff_eq, bne_iff_ne] at this
      tauto
  · rintro ⟨h1, h2⟩
    constructor
    · intro c hc
      rw [Bool.or_eq_true, beq_iff_eq, bne_iff_ne]
      by_cases hceq : c = col
      · exact Or.inl hceq
      · exact Or.inr (h1 c (List.mem_range.mp hc) hceq)
    · intro r hr
      rw [Bool.or_eq_true, beq_iff_eq, bne_iff_ne]
      by_cases hreq : r = row
      · exact Or.inl hreq
      · exact Or.inr (h2 r (List.mem_range.mp hr) hreq)

/-- The prefix `asg` is reachable by the counting search: every step's
value came from `1..n` and passed that step's checks. -/
def ReachOK (p : Puzzle) (asg : List Nat) : Prop :=
  ∀ i, i < asg.length →
    asg.getD i 0 ∈ valueCandidates p.size ∧
    countPlaceOK p (asg.take i) (asg.getD i 0) = true

theorem reachOK_nil (p : Puzzle) : ReachOK p [] := by
  intro i hi
  simp at hi

theorem reachOK_append {p : Puzzle} {asg : List Nat} {v : Nat} (hr : ReachOK p asg)
    (hv : v ∈ valueCandidates p.size) (hok : countPlaceOK p asg v = true) :
    ReachOK p (asg ++ [v]) := by
  intro i hi
  rw [List.length_append, List.length_singleton] at hi
  rcases lt_or_ge i asg.length with h | h
  · rw [getD_append_lt h, List.take_append_of_le_length (by omega)]
    exact hr i h
  · have hieq : i = asg.length := by omega
    subst hieq
    rw [getD_append_len, take_append_len]
    exact ⟨hv, hok⟩

theorem masked_values (n j : Nat) (h : List Nat) (cells : List Cell) :
    List.Forall₂ (fun a b => a = b ∨ a = 0)
      (cells.map (fun c => gridGet (h.take j) n c.row c.col))
      (cells.map (fun c => gridGet h n c.row c.col)) := by
  induction cells with
  | nil => exact List.Forall₂.nil
  | cons c cs ih =>
    refine List.Forall₂.cons ?_ ih
    unfold gridGet
    rcases lt_or_ge (c.row * n + c.col) j with hlt | hge
    · exact Or.inl (getD_take_lt hlt)
    · exact Or.inr (getD_take_ge hge)

theorem masked_filter_sum_le {l₁ l₂ : List Nat}
    (hf : List.Forall₂ (fun a b => a = b ∨ a = 0) l₁ l₂) :
    (l₁.filter (fun v => v != 0)).sum ≤ l₂.sum := by
  induction hf with
  | nil => simp
  | @cons a b l₁ l₂ hab htl ih =>
    rcases hab with rfl | h0
    · by_cases hz : a = 0
      · subst hz
        rw [List.filter_cons_of_neg (by simp)]
        simp only [List.sum_cons]
        omega
      · rw [List.filter_cons_of_pos (by simpa [bne_iff_ne] using hz)]
        simp only [List.sum_cons]
        omega
    · rw [h0, List.filter_cons_of_neg (by simp)]
      simp only [List.sum_cons]
      omega

theorem masked_filter_prod_le {l₁ l₂ : List Nat}
    (hf : List.Forall₂ (fun a b => a = b ∨ a = 0) l₁ l₂) :
    (∀ v ∈ l₂, 1 ≤ v) → (l₁.filter (fun v => v != 0)).prod ≤ l₂.prod := by
  induction hf with
  | nil => intro _; simp
  | @cons a b l₁ l₂ hab htl ih =>
    intro hpos
    have hb : 1 ≤ b := hpos b (List.mem_cons_self _ _)
    have ih2 := ih (fun v hv => hpos v (List.mem_cons_of_mem _ hv))
    rcases hab with rfl | h0
    · rw [List.filter_cons_of_pos (by simp [bne_iff_ne]; omega)]
      simp only [List.prod_cons]
      exact Nat.mul_le_mul_left a ih2
    · rw [h0, List.filter_cons_of_neg (by simp)]
      simp only [List.prod_cons]
      exact le_trans ih2 (Nat.le_mul_of_pos_left _ (by omega))

theorem masked_no_zero_eq {l₁ l₂ : List Nat}
    (hf : List.Forall₂ (fun a b => a = b ∨ a = 0) l₁ l₂)
    (hnz : ∀ v ∈ l₁, v ≠ 0) : l₁ = l₂ := by
  induction hf with
  | nil => rfl
  | @cons a b l₁ l₂ hab htl ih =>
    have ha := hnz a (List.mem_cons_self _ _)
    rcases hab with rfl | h0
    · rw [ih (fun v hv => hnz v (List.mem_cons_of_mem _ hv))]
    · exact absurd h0 ha

/-- When no cage cell is empty, `isCageSatisfied` is the exact full check. -/
theorem isCageSatisfied_no_empty {n : Nat} {cg : Cage} {asg : List Nat}
    (hnz : ∀ c ∈ cg.cells, gridGet asg n c.row c.col ≠ 0) (ap : Bool) :
    isCageSatisfied n cg asg ap = isFullCageValid cg (cageCellValues n cg asg) := by
  have hvals : ∀ v ∈ cageCellValues n cg asg, v ≠ 0 := by
    intro v hv
    rw [cageCellValues, List.mem_map] at hv
    obtain ⟨c, hc, rfl⟩ := hv
    exact hnz c hc
  have hempty : (cageCellValues n cg asg).any (fun v => v == 0) = false := by
    rw [List.any_eq_false]
    intro v hv
    simpa using hvals v hv
  simp only [isCageSatisfied, hempty, Bool.false_eq_true, if_false]
  congr 1
  apply List.filter_eq_self.mpr
  intro v hv
  simpa using hvals v hv

theorem foldl_add_beq_sum (l : List Nat) (t : Nat) :
    (l.foldl (· + ·) 0 == t) = (l.sum == t) := by
  rw [foldl_add_nat]

theorem foldl_mul_beq_prod (l : List Nat) (t : Nat) :
    (l.foldl (· * ·) 1 == t) = (l.prod == t) := by
  rw [foldl_mul_nat]

/-- A fully satisfied cage passes the partial check on every prefix grid. -/
theorem isCageSatisfied_prefix {n : Nat} {cg : Cage} {h : List Nat} {j : Nat}
    (hfull : isFullCageValid cg (cageCellValues n cg h) = true)
    (hpos : ∀ c ∈ cg.cells, 1 ≤ gridGet h n c.row c.col) :
    isCageSatisfied n cg (h.take j) true = true := by
  obtain ⟨cid, cells, target, op⟩ := cg
  have hmask : List.Forall₂ (fun a b => a = b ∨ a = 0)
      (cageCellValues n ⟨cid, cells, target, op⟩ (h.take j))
      (cageCellValues n ⟨cid, cells, target, op⟩ h) :=
    masked_values n j h cells
  have hlenfull : (cageCellValues n ⟨cid, cells, target, op⟩ h).length = cells.length := by
    simp [cageCellValues]
  have hlentake : (cageCellValues n ⟨cid, cells, target, op⟩ (h.take j)).length
      = cells.length := by
    simp [cageCellValues]
  by_cases hempty : (cageCellValues n ⟨cid, cells, target, op⟩ (h.take j)).any
      (fun v => v == 0)
  · -- some cage cell still empty: the partial check must pass
    simp only [isCageSatisfied, hempty, if_true]
    cases op with
    | none =>
      have hfl : (cageCellValues n ⟨cid, cells, target, Op.none⟩ h).length = 1 := by
        have := hfull
        simp only [isFullCageValid, Bool.and_eq_true, beq_iff_eq] at this
        exact this.1
      show ((((cageCellValues n ⟨cid, cells, target, Op.none⟩ (h.take j)).filter
          (fun v => v != 0)).length == 0) ||
        (((cageCellValues n ⟨cid, cells, target, Op.none⟩ (h.take j)).filter
          (fun v => v != 0)).getD 0 0 == target)) = true
      rw [Bool.or_eq_true]
      left
      rw [beq_iff_eq, List.length_eq_zero, List.filter_eq_nil]
      intro v hv
      simp only [bne_iff_ne, ne_eq, Decidable.not_not]
      have hlen1 : (cageCellValues n ⟨cid, cells, target, Op.none⟩ (h.take j)).length = 1 := by
        omega
      obtain ⟨x, hx⟩ := List.length_eq_one.mp hlen1
      rw [hx] at hv hempty
      simp only [List.any_cons, List.any_nil, Bool.or_false, beq_iff_eq] at hempty
      rw [List.mem_singleton.mp hv]
      exact hempty
    | add =>
      simp only [isFullCageValid, foldl_add_nat, beq_iff_eq] at hfull
      show decide (((cageCellValues n ⟨cid, cells, target, Op.add⟩ (h.take j)).filter
          (fun v => v != 0)).foldl (· + ·) 0 ≤ target) = true
      rw [decide_eq_true_eq, foldl_add_nat, ← hfull]
      exact masked_filter_sum_le hmask
    | sub => rfl
    | mul =>
      simp only [isFullCageValid, foldl_mul_nat, beq_iff_eq] at hfull
      show decide (((cageCellValues n ⟨cid, cells, target, Op.mul⟩ (h.take j)).filter
          (fun v => v != 0)).foldl (· * ·) 1 ≤ target) = true
      rw [decide_eq_true_eq, foldl_mul_nat, ← hfull]
      refine masked_filter_prod_le hmask ?_
      intro v hv
      rw [cageCellValues, List.mem_map] at hv
      obtain ⟨c, hc, rfl⟩ := hv
      exact hpos c hc
    | div => rfl
  · -- every cage cell already filled: the prefix values are the full values
    have hnz : ∀ c ∈ cells, gridGet (h.take j) n c.row c.col ≠ 0 := by
      intro c hc hz
      apply hempty
      rw [List.any_eq_true]
      refine ⟨0, ?_, by simp⟩
      rw [cageCellValues, List.mem_map]
      exact ⟨c, hc, hz⟩
    rw [isCageSatisfied_no_empty hnz]
    rw [masked_no_zero_eq hmask (fun v hv => by
      rw [cageCellValues, List.mem_map] at hv
      obtain ⟨c, hc, rfl⟩ := hv
      exact hnz c hc)]
    exact hfull

theorem exists_max_cell (f : Cell → Nat) :
    ∀ (l : List Cell), l ≠ [] → ∃ c ∈ l, ∀ x ∈ l, f x ≤ f c := by
  intro l
  induction l with
  | nil => intro hne; exact absurd rfl hne
  | cons a l ih =>
    intro _
    by_cases hl : l = []
    · subst hl
      refine ⟨a, List.mem_cons_self _ _, ?_⟩
      intro x hx
      rw [List.mem_singleton.mp hx]
    · obtain ⟨c, hc, hmax⟩ := ih hl
      rcases le_or_lt (f a) (f c) with hle | hlt
      · refine ⟨c, List.mem_cons_of_mem _ hc, ?_⟩
        intro x hx
        rcases List.mem_cons.mp hx with rfl | hx2
        · exact hle
        · exact hmax x hx2
      · refine ⟨a, List.mem_cons_self _ _, ?_⟩
        intro x hx
        rcases List.mem_cons.mp hx with rfl | hx2
        · exact le_refl _
        · exact le_trans (hmax x hx2) (le_of_lt hlt)

theorem cage_any_cell_iff {cg : Cage} {r c : Nat} :
    (cg.cells.any fun cc => cc.row == r && cc.col == c) = true ↔
      Cell.mk r c ∈ cg.cells := by
  rw [List.any_eq_true]
  constructor
  · rintro ⟨cc, hcc, hp⟩
    rw [Bool.and_eq_true, beq_iff_eq, beq_iff_eq] at hp
    have hcceq : cc = Cell.mk r c := by
      cases cc
      simp only [Cell.mk.injEq]
      exact hp
    rwa [hcceq] at hcc
  · intro hm
    exact ⟨_, hm, by simp⟩

theorem getCageForCell_unique :
    ∀ (cages : List Cage),
      List.Pairwise (fun a b => ∀ c, c ∈ a.cells → c ∉ b.cells) cages →
      ∀ {cg : Cage}, cg ∈ cages → ∀ {r c : Nat}, Cell.mk r c ∈ cg.cells →
      getCageForCell cages r c = some cg := by
  intro cages
  induction cages with
  | nil => intro _ cg hmem; simp at hmem
  | cons a rest ih =>
    intro hpw cg hmem r c hc
    rcases List.mem_cons.mp hmem with rfl | hmemr
    · have hpa := cage_any_cell_iff.mpr hc
      unfold getCageForCell
      rw [List.find?_cons, hpa]
    · have hpa := List.rel_of_pairwise_cons hpw hmemr
      have hna : (a.cells.any fun cc => cc.row == r && cc.col == c) = false := by
        rw [Bool.eq_false_iff]
        intro hcon
        exact hpa _ (cage_any_cell_iff.mp hcon) hc
      unfold getCageForCell
      rw [List.find?_cons, hna]
      exact ih hpw.of_cons hmemr hc

theorem isSolutionList_iff {p : Puzzle} {h : List Nat} :
    isSolutionList p h = true ↔
      h.length = p.size * p.size ∧
      (∀ v ∈ h, 1 ≤ v ∧ v ≤ p.size) ∧
      (∀ i, i < p.size * p.size →
        isValidPlacement h p.size (i / p.size) (i % p.size) (h.getD i 0) = true) ∧
      (∀ cg ∈ p.cages, isCageSatisfied p.size cg h true = true) := by
  unfold isSolutionList
  simp only [Bool.and_eq_true, beq_iff_eq, List.all_eq_true, List.mem_range,
    decide_eq_true_eq]
  tauto

theorem placement_of_reach {p : Puzzle} {h : List Nat}
    (hlen : h.length = p.size * p.size) (hr : ReachOK p h)
    {i : Nat} (hi : i < p.size * p.size) :
    isValidPlacement h p.size (i / p.size) (i % p.size) (h.getD i 0) = true := by
  have hn0 : 0 < p.size := by
    rcases Nat.eq_zero_or_pos p.size with h0 | h0
    · rw [h0] at hi; simp at hi
    · exact h0
  set n := p.size with hndef
  have hrow : i / n < n := idx_div_lt hi
  have hmodlt : i % n < n := Nat.mod_lt _ hn0
  have hdecomp : (i / n) * n + i % n = i := idx_decomp hn0
  have hstep : ∀ j, j < n * n →
      isValidPlacement (h.take j) n (j / n) (j % n) (h.getD j 0) = true := by
    intro j hj
    have hj2 := (hr j (by omega)).2
    unfold countPlaceOK at hj2
    rw [Bool.and_eq_true] at hj2
    have hlt : (h.take j).length = j := by
      rw [List.length_take]; omega
    rw [hlt] at hj2
    exact hj2.1
  rw [isValidPlacement_iff]
  constructor
  · intro c' hc' hne
    have hj : (i / n) * n + c' < n * n := cellIdx_lt hrow hc'
    rcases Nat.lt_trichotomy ((i / n) * n + c') i with hlt | heq | hgt
    · have hs := hstep i hi
      rw [isValidPlacement_iff] at hs
      have hcc := hs.1 c' hc' hne
      unfold gridGet at hcc ⊢
      rwa [getD_take_lt hlt] at hcc
    · exact absurd (by omega : c' = i % n) hne
    · have hs := hstep ((i / n) * n + c') hj
      rw [isValidPlacement_iff] at hs
      rw [cellIdx_div hc', cellIdx_mod hc'] at hs
      have hcc := hs.1 (i % n) hmodlt (fun hmc => hne hmc.symm)
      unfold gridGet at hcc ⊢
      rw [hdecomp, getD_take_lt hgt] at hcc
      exact fun hcon => hcc hcon.symm
  · intro r' hr' hner
    have hj : r' * n + i % n < n * n := cellIdx_lt hr' hmodlt
    rcases Nat.lt_trichotomy (r' * n + i % n) i with hlt | heq | hgt
    · have hs := hstep i hi
      rw [isValidPlacement_iff] at hs
      have hcc := hs.2 r' hr' hner
      unfold gridGet at hcc ⊢
      rwa [getD_take_lt hlt] at hcc
    · exfalso
      apply hner
      have hmm : r' * n = (i / n) * n := by omega
      exact Nat.eq_of_mul_eq_mul_right hn0 hmm
    · have hs := hstep (r' * n + i % n) hj
      rw [isValidPlacement_iff] at hs
      rw [cellIdx_div hmodlt, cellIdx_mod hmodlt] at hs
      have hcc := hs.2 (i / n) hrow (fun hrc => hner hrc.symm)
      unfold gridGet at hcc ⊢
      rw [hdecomp, getD_take_lt hgt] at hcc
      exact fun hcon => hcc hcon.symm

theorem cages_of_reach {p : Puzzle} (hwf : PuzzleWF p) {h : List Nat}
    (hlen : h.length = p.size * p.size) (hr : ReachOK p h)
    {cg : Cage} (hcg : cg ∈ p.cages) :
    isCageSatisfied p.size cg h true = true := by
  obtain ⟨hwf1, hwf2⟩ := hwf
  obtain ⟨hne, hbnd⟩ := hwf1 cg hcg
  obtain ⟨cmax, hcmax, hmax⟩ :=
    exists_max_cell (fun c => c.row * p.size + c.col) cg.cells hne
  have hbm := hbnd cmax hcmax
  have hiN : cmax.row * p.size + cmax.col < p.size * p.size := cellIdx_lt hbm.1 hbm.2
  have hvals1 : ∀ c ∈ cg.cells, 1 ≤ gridGet h p.size c.row c.col := by
    intro c hcm
    have hb := hbnd c hcm
    have hidx : c.row * p.size + c.col < h.length := by
      rw [hlen]; exact cellIdx_lt hb.1 hb.2
    have hv := mem_valueCandidates.mp (hr _ hidx).1
    unfold gridGet
    omega
  have hstep := (hr (cmax.row * p.size + cmax.col) (by omega)).2
  unfold countPlaceOK at hstep
  rw [Bool.and_eq_true] at hstep
  obtain ⟨-, hsat⟩ := hstep
  have hlt : (h.take (cmax.row * p.size + cmax.col)).length
      = cmax.row * p.size + cmax.col := by
    rw [List.length_take]; omega
  rw [hlt, cellIdx_div hbm.2, cellIdx_mod hbm.2] at hsat
  have hfind : getCageForCell p.cages cmax.row cmax.col = some cg :=
    getCageForCell_unique p.cages hwf2 hcg (by
      have hmk : Cell.mk cmax.row cmax.col = cmax := by cases cmax; rfl
      rw [hmk]; exact hcmax)
  simp only [hfind] at hsat
  rw [← take_succ_getD (by omega : cmax.row * p.size + cmax.col < h.length)] at hsat
  have hnzpre : ∀ c ∈ cg.cells,
      gridGet (h.take (cmax.row * p.size + cmax.col + 1)) p.size c.row c.col ≠ 0 := by
    intro c hcm
    have hle := hmax c hcm
    have hv1 := hvals1 c hcm
    unfold gridGet at hv1 ⊢
    rw [getD_take_lt (by omega)]
    omega
  rw [isCageSatisfied_no_empty hnzpre] at hsat
  have heqvals : cageCellValues p.size cg (h.take (cmax.row * p.size + cmax.col + 1))
      = cageCellValues p.size cg h := by
    refine masked_no_zero_eq (masked_values _ _ _ _) ?_
    intro v hv
    rw [cageCellValues, List.mem_map] at hv
    obtain ⟨c, hcm, rfl⟩ := hv
    exact hnzpre c hcm
  rw [heqvals] at hsat
  have hnzfull : ∀ c ∈ cg.cells, gridGet h p.size c.row c.col ≠ 0 := by
    intro c hcm
    have := hvals1 c hcm
    omega
  rw [isCageSatisfied_no_empty hnzfull]
  exact hsat

theorem solution_of_reach {p : Puzzle} (hwf : PuzzleWF p) {h : List Nat}
    (hlen : h.length = p.size * p.size) (hr : ReachOK p h) :
    isSolutionList p h = true := by
  rw [isSolutionList_iff]
  refine ⟨hlen, ?_, fun i hi => placement_of_reach hlen hr hi,
    fun cg hcg => cages_of_reach hwf hlen hr hcg⟩
  intro v hv
  obtain ⟨i, hi, rfl⟩ := List.mem_iff_getElem.mp hv
  have hvc := mem_valueCandidates.mp (hr i hi).1
  rwa [List.getD_eq_getElem h 0 hi] at hvc

theorem placement_take {n : Nat} {h : List Nat} {i : Nat}
    (hfull : isValidPlacement h n (i / n) (i % n) (h.getD i 0) = true)
    (hposv : 1 ≤ h.getD i 0) :
    isValidPlacement (h.take i) n (i / n) (i % n) (h.getD i 0) = true := by
  rw [isValidPlacement_iff] at hfull ⊢
  obtain ⟨h1, h2⟩ := hfull
  constructor
  · intro c' hc' hne
    unfold gridGet
    rcases lt_or_ge ((i / n) * n + c') i with hj | hj
    · rw [getD_take_lt hj]
      have hcc := h1 c' hc' hne
      unfold gridGet at hcc
      exact hcc
    · rw [getD_take_ge hj]
      omega
  · intro r' hr' hne
    unfold gridGet
    rcases lt_or_ge (r' * n + i % n) i with hj | hj
    · rw [getD_take_lt hj]
      have hcc := h2 r' hr' hne
      unfold gridGet at hcc
      exact hcc
    · rw [getD_take_ge hj]
      omega

theorem reach_of_solution {p : Puzzle} (hwf : PuzzleWF p) {h : List Nat}
    (hsol : isSolutionList p h = true) : ReachOK p h := by
  obtain ⟨hlen, hvals, hplace, hcages⟩ := isSolutionList_iff.mp hsol
  obtain ⟨hwf1, hwf2⟩ := hwf
  have hval_getD : ∀ i, i < h.length → 1 ≤ h.getD i 0 ∧ h.getD i 0 ≤ p.size := by
    intro i hi
    rw [List.getD_eq_getElem h 0 hi]
    exact hvals _ (List.getElem_mem hi)
  intro i hi
  have hiN : i < p.size * p.size := by omega
  refine ⟨mem_valueCandidates.mpr (hval_getD i hi), ?_⟩
  unfold countPlaceOK
  rw [Bool.and_eq_true]
  have hlt : (h.take i).length = i := by rw [List.length_take]; omega
  rw [hlt]
  refine ⟨placement_take (hplace i hiN) (hval_getD i hi).1, ?_⟩
  cases hfind : getCageForCell p.cages (i / p.size) (i % p.size) with
  | none => rfl
  | some cg =>
    have hcgmem : cg ∈ p.cages := List.mem_of_find?_eq_some hfind
    have hbnd := (hwf1 cg hcgmem).2
    have hpos : ∀ c ∈ cg.cells, 1 ≤ gridGet h p.size c.row c.col := by
      intro c hcm
      have hb := hbnd c hcm
      have hidx : c.row * p.size + c.col < h.length := by
        rw [hlen]; exact cellIdx_lt hb.1 hb.2
      unfold gridGet
      exact (hval_getD _ hidx).1
    have hnzfull : ∀ c ∈ cg.cells, gridGet h p.size c.row c.col ≠ 0 := by
      intro c hcm
      have := hpos c hcm
      omega
    have hfullv : isFullCageValid cg (cageCellValues p.size cg h) = true := by
      rw [← isCageSatisfied_no_empty hnzfull true]
      exact hcages cg hcgmem
    rw [← take_succ_getD (by omega : i < h.length)]
    exact isCageSatisfied_prefix hfullv hpos

theorem reach_iff_solution {p : Puzzle} (hwf : PuzzleWF p) {h : List Nat}
    (hlen : h.length = p.size * p.size) :
    ReachOK p h ↔ isSolutionList p h = true :=
  ⟨solution_of_reach hwf hlen, reach_of_solution hwf⟩

/-- The number of solutions extending `asg` whose next value lies in `vals`. -/
def extCount (p : Puzzle) (asg : List Nat) (vals : List Nat) : Nat :=
  ((allAssignments p.size (p.size * p.size)).filter
    (fun h => isSolutionList p h && (h.take asg.length == asg)
      && decide (h.getD asg.length 0 ∈ vals))).length

theorem extCount_nil (p : Puzzle) (asg : List Nat) : extCount p asg [] = 0 := by
  unfold extCount
  rw [List.length_eq_zero, List.filter_eq_nil]
  intro h _
  simp

theorem filter_length_or {α : Type} (l : List α) (f g : α → Bool)
    (hdis : ∀ x ∈ l, ¬(f x = true ∧ g x = true)) :
    (l.filter (fun x => f x || g x)).length = (l.filter f).length + (l.filter g).length := by
  induction l with
  | nil => simp
  | cons a l ih =>
    have ih2 := ih (fun x hx => hdis x (List.mem_cons_of_mem _ hx))
    simp only [List.filter_cons]
    by_cases hfa : f a = true
    · have hga : ¬ g a = true := fun hg => hdis a (List.mem_cons_self _ _) ⟨hfa, hg⟩
      rw [if_pos (by simp [hfa]), if_pos hfa, if_neg hga]
      simp only [List.length_cons, ih2]
      omega
    · by_cases hga : g a = true
      · rw [if_pos (by simp [hga]), if_neg hfa, if_pos hga]
        simp only [List.length_cons, ih2]
        omega
      · rw [Bool.not_eq_true] at hfa hga
        rw [if_neg (by simp [hfa, hga]), if_neg (by simp [hfa]), if_neg (by simp [hga])]
        exact ih2

theorem filter_eq_single {α : Type} {f : α → Bool} :
    ∀ (l : List α), l.Nodup → ∀ a, a ∈ l → (∀ x ∈ l, f x = true ↔ x = a) →
      l.filter f = [a] := by
  intro l
  induction l with
  | nil => intro _ a ha; simp at ha
  | cons b l ih =>
    intro hnd a ha hf
    rcases List.mem_cons.mp ha with heq | ha2
    · subst heq
      rw [List.filter_cons_of_pos ((hf a (List.mem_cons_self _ _)).mpr rfl)]
      have he : l.filter f = [] := by
        rw [List.filter_eq_nil]
        intro x hx hfx
        have hxa := (hf x (List.mem_cons_of_mem _ hx)).mp hfx
        subst hxa
        exact (List.nodup_cons.mp hnd).1 hx
      rw [he]
    · have hnb : ¬ f b = true := by
        intro hfb
        have hba := (hf b (List.mem_cons_self _ _)).mp hfb
        subst hba
        exact (List.nodup_cons.mp hnd).1 ha2
      rw [List.filter_cons_of_neg hnb]
      exact ih (List.nodup_cons.mp hnd).2 a ha2 (fun x hx => hf x (List.mem_cons_of_mem _ hx))

theorem extCount_cons (p : Puzzle) (asg : List Nat) (v : Nat) (rest : List Nat)
    (hvr : v ∉ rest) :
    extCount p asg (v :: rest) = extCount p asg [v] + extCount p asg rest := by
  have hsplit : ∀ h : List Nat,
      (isSolutionList p h && (h.take asg.length == asg)
        && decide (h.getD asg.length 0 ∈ v :: rest))
      = ((isSolutionList p h && (h.take asg.length == asg)
          && decide (h.getD asg.length 0 ∈ [v]))
        || (isSolutionList p h && (h.take asg.length == asg)
          && decide (h.getD asg.length 0 ∈ rest))) := by
    intro h
    rw [← Bool.and_or_distrib_left]
    congr 1
    rw [Bool.eq_iff_iff]
    simp [List.mem_cons]
  unfold extCount
  rw [List.filter_congr (fun x _ => hsplit x)]
  apply filter_length_or
  intro x _
  rintro ⟨h1, h2⟩
  rw [Bool.and_eq_true, decide_eq_true_eq, List.mem_singleton] at h1
  rw [Bool.and_eq_true, decide_eq_true_eq] at h2
  exact hvr (h1.2 ▸ h2.2)

theorem take_succ_eq_append_iff {h asg : List Nat} {v : Nat}
    (hlen : asg.length < h.length) :
    h.take (asg.length + 1) = asg ++ [v] ↔
      (h.take asg.length = asg ∧ h.getD asg.length 0 = v) := by
  rw [take_succ_getD hlen]
  constructor
  · intro heq
    have hl : (h.take asg.length).length = asg.length := by
      rw [List.length_take]; omega
    obtain ⟨e1, e2⟩ := List.append_inj heq hl
    refine ⟨e1, ?_⟩
    simpa using e2
  · rintro ⟨h1, h2⟩
    rw [h1, h2]

theorem extCount_single_one (p : Puzzle) (asg : List Nat) (v : Nat)
    (hsol : isSolutionList p (asg ++ [v]) = true)
    (hmem : asg ++ [v] ∈ allAssignments p.size (p.size * p.size))
    (hN : asg.length + 1 = p.size * p.size) :
    extCount p asg [v] = 1 := by
  have hchar : ∀ x ∈ allAssignments p.size (p.size * p.size),
      (isSolutionList p x && (x.take asg.length == asg)
        && decide (x.getD asg.length 0 ∈ [v])) = true ↔ x = asg ++ [v] := by
    intro x hx
    have hxlen : x.length = p.size * p.size := (mem_allAssignments.mp hx).1
    rw [Bool.and_eq_true, Bool.and_eq_true, beq_iff_eq, decide_eq_true_eq,
      List.mem_singleton]
    constructor
    · rintro ⟨⟨hsolx, htake⟩, hgd⟩
      have hx2 : x.take (asg.length + 1) = x := by
        rw [hN, ← hxlen]
        exact List.take_length x
      have hx3 : x = x.take asg.length ++ [x.getD asg.length 0] := by
        rw [← take_succ_getD (by omega), hx2]
      rw [hx3, htake, hgd]
    · rintro rfl
      exact ⟨⟨hsol, by rw [take_append_len]⟩, by rw [getD_append_len]⟩
  unfold extCount
  rw [filter_eq_single _ (allAssignments_nodup p.size _) (asg ++ [v]) hmem hchar]
  rfl

theorem extCount_single_zero (p : Puzzle) (hwf : PuzzleWF p) (asg : List Nat) (v : Nat)
    (hlen : asg.length < p.size * p.size)
    (hfail : ¬ countPlaceOK p asg v = true) :
    extCount p asg [v] = 0 := by
  unfold extCount
  rw [List.length_eq_zero, List.filter_eq_nil]
  intro x hx hpred
  rw [Bool.and_eq_true, Bool.and_eq_true, beq_iff_eq, decide_eq_true_eq,
    List.mem_singleton] at hpred
  obtain ⟨⟨hsolx, htake⟩, hgd⟩ := hpred
  have hreach := reach_of_solution hwf hsolx
  have hxlen : x.length = p.size * p.size := (isSolutionList_iff.mp hsolx).1
  have hstep := (hreach asg.length (by omega)).2
  rw [htake, hgd] at hstep
  exact hfail hstep

theorem extCount_descend (p : Puzzle) (asg : List Nat) (v : Nat)
    (hlt : asg.length + 1 < p.size * p.size) :
    extCount p asg [v] = extCount p (asg ++ [v]) (valueCandidates p.size) := by
  have hpt : ∀ x ∈ allAssignments p.size (p.size * p.size),
      (isSolutionList p x && (x.take asg.length == asg)
        && decide (x.getD asg.length 0 ∈ [v]))
      = (isSolutionList p x && (x.take (asg ++ [v]).length == asg ++ [v])
        && decide (x.getD (asg ++ [v]).length 0 ∈ valueCandidates p.size)) := by
    intro x hx
    obtain ⟨hxlen, hxvals⟩ := mem_allAssignments.mp hx
    rw [List.length_append, List.length_singleton, Bool.eq_iff_iff,
      Bool.and_eq_true, Bool.and_eq_true, Bool.and_eq_true, Bool.and_eq_true,
      beq_iff_eq, beq_iff_eq, decide_eq_true_eq, decide_eq_true_eq,
      List.mem_singleton]
    constructor
    · rintro ⟨⟨hsolx, htake⟩, hgd⟩
      refine ⟨⟨hsolx, by rw [take_succ_getD (by omega), htake, hgd]⟩, ?_⟩
      have hlt2 : asg.length + 1 < x.length := by omega
      rw [List.getD_eq_getElem x 0 hlt2]
      exact hxvals _ (List.getElem_mem hlt2)
    · rintro ⟨⟨hsolx, htake⟩, _⟩
      have hdec := (take_succ_eq_append_iff (by omega)).mp htake
      exact ⟨⟨hsolx, hdec.1⟩, hdec.2⟩
  unfold extCount
  exact congrArg List.length (List.filter_congr hpt)

theorem countAux_nil (p : Puzzle) (asg : List Nat) (count : Nat) :
    countAux p asg [] count = count := by
  simp only [countAux]

theorem countAux_cons (p : Puzzle) (asg : List Nat) (v : Nat) (rest : List Nat)
    (count : Nat) :
    countAux p asg (v :: rest) count =
      if countPlaceOK p asg v then
        (if 2 ≤ (if p.size * p.size ≤ asg.length + 1 then count + 1
                 else countAux p (asg ++ [v]) (valueCandidates p.size) count)
         then (if p.size * p.size ≤ asg.length + 1 then count + 1
               else countAux p (asg ++ [v]) (valueCandidates p.size) count)
         else countAux p asg rest
           (if p.size * p.size ≤ asg.length + 1 then count + 1
            else countAux p (asg ++ [v]) (valueCandidates p.size) count))
      else countAux p asg rest count := by
  simp only [countAux]

/-- The core counting identity: from a reachable prefix with a running
count of at most 1, the loop over the remaining candidate values returns
`min 2 (count + number of matching solutions)` — the early exit caps the
count at 2 but never changes which of `0`, `1`, `≥ 2` is reported. -/
theorem countAux_eq_aux (p : Puzzle) (hwf : PuzzleWF p) :
    ∀ (fuel : Nat) (asg : List Nat), p.size * p.size - asg.length ≤ fuel →
      ∀ (vals : List Nat) (count : Nat),
        asg.length < p.size * p.size →
        ReachOK p asg →
        (∀ v ∈ vals, v ∈ valueCandidates p.size) →
        vals.Nodup →
        count ≤ 1 →
        countAux p asg vals count = min 2 (count + extCount p asg vals) := by
  intro fuel
  induction fuel with
  | zero =>
    intro asg hfuel vals count hlen
    omega
  | succ fuel ihf =>
    intro asg hfuel vals
    induction vals with
    | nil =>
      intro count hlen hreach hsub hnd hcnt
      rw [countAux_nil, extCount_nil]
      omega
    | cons v rest ihv =>
      intro count hlen hreach hsub hnd hcnt
      have hvc : v ∈ valueCandidates p.size := hsub v (List.mem_cons_self _ _)
      have hvr : v ∉ rest := (List.nodup_cons.mp hnd).1
      have hsubr : ∀ w ∈ rest, w ∈ valueCandidates p.size :=
        fun w hw => hsub w (List.mem_cons_of_mem _ hw)
      have hndr := (List.nodup_cons.mp hnd).2
      rw [countAux_cons, extCount_cons p asg v rest hvr]
      by_cases hplace : countPlaceOK p asg v = true
      · rw [if_pos hplace]
        by_cases hbase : p.size * p.size ≤ asg.length + 1
        · simp only [if_pos hbase]
          have hreach1 : ReachOK p (asg ++ [v]) := reachOK_append hreach hvc hplace
          have hlen1 : (asg ++ [v]).length = p.size * p.size := by
            rw [List.length_append, List.length_singleton]; omega
          have hsol1 : isSolutionList p (asg ++ [v]) = true :=
            solution_of_reach hwf hlen1 hreach1
          have hmem1 : asg ++ [v] ∈ allAssignments p.size (p.size * p.size) := by
            rw [mem_allAssignments]
            refine ⟨hlen1, ?_⟩
            intro w hw
            rcases List.mem_append.mp hw with hw1 | hw2
            · obtain ⟨i, hi, rfl⟩ := List.mem_iff_getElem.mp hw1
              have hvv := (hreach i hi).1
              rwa [List.getD_eq_getElem asg 0 hi] at hvv
            · rw [List.mem_singleton.mp hw2]; exact hvc
          have hext1 : extCount p asg [v] = 1 :=
            extCount_single_one p asg v hsol1 hmem1 (by omega)
          by_cases hstop : 2 ≤ count + 1
          · rw [if_pos hstop]
            omega
          · rw [if_neg hstop]
            have hrest := ihv (count + 1) hlen hreach hsubr hndr (by omega)
            rw [hrest]
            omega
        · simp only [if_neg hbase]
          have hreach1 : ReachOK p (asg ++ [v]) := reachOK_append hreach hvc hplace
          have hlen1 : (asg ++ [v]).length < p.size * p.size := by
            rw [List.length_append, List.length_singleton]; omega
          have hdesc := ihf (asg ++ [v])
            (by rw [List.length_append, List.length_singleton]; omega)
            (valueCandidates p.size) count hlen1 hreach1 (fun w hw => hw)
            (valueCandidates_nodup _) hcnt
          have hext1 : extCount p asg [v]
              = extCount p (asg ++ [v]) (valueCandidates p.size) :=
            extCount_descend p asg v (by omega)
          rw [hdesc]
          by_cases hstop :
              2 ≤ min 2 (count + extCount p (asg ++ [v]) (valueCandidates p.size))
          · rw [if_pos hstop]
            omega
          · rw [if_neg hstop]
            have hrest := ihv
              (min 2 (count + extCount p (asg ++ [v]) (valueCandidates p.size)))
              hlen hreach hsubr hndr (by omega)
            rw [hrest]
            omega
      · rw [if_neg hplace]
        have hext0 : extCount p asg [v] = 0 :=
          extCount_single_zero p hwf asg v (by omega) hplace
        have hrest := ihv count hlen hreach hsubr hndr hcnt
        rw [hrest]
        omega

theorem countSolutions_eq (p : Puzzle) (hwf : PuzzleWF p) :
    countSolutions p = min 2 (numSolutions p) := by
  unfold countSolutions
  by_cases hz : p.size * p.size = 0
  · rw [if_pos hz]
    have hn0 : p.size = 0 := by
      rcases Nat.mul_eq_zero.mp hz with h | h <;> exact h
    have hcages : p.cages = [] := by
      cases hcg : p.cages with
      | nil => rfl
      | cons a rest =>
        exfalso
        obtain ⟨hne, hbnd⟩ := hwf.1 a (by rw [hcg]; exact List.mem_cons_self _ _)
        cases ha : a.cells with
        | nil => exact hne ha
        | cons c cs =>
          have hb := hbnd c (by rw [ha]; exact List.mem_cons_self _ _)
          omega
    have hnum : numSolutions p = 1 := by
      unfold numSolutions
      rw [hz]
      simp [allAssignments, isSolutionList, hz, hcages]
    rw [hnum]
    rfl
  · rw [if_neg hz]
    have hc := countAux_eq_aux p hwf (p.size * p.size) []
      (by simp) (valueCandidates p.size) 0
      (by simp only [List.length_nil]; omega) (reachOK_nil p) (fun w hw => hw)
      (valueCandidates_nodup _) (by omega)
    rw [hc, Nat.zero_add]
    congr 1
    unfold extCount numSolutions
    apply congrArg List.length
    apply List.filter_congr
    intro x hx
    obtain ⟨hxlen, hxvals⟩ := mem_allAssignments.mp hx
    cases hsol : isSolutionList p x
    · simp
    · have hA : (x.take (List.length ([] : List Nat)) == ([] : List Nat)) = true := by
        simp
      have hB : decide (x.getD (List.length ([] : List Nat)) 0 ∈ valueCandidates p.size)
          = true := by
        rw [decide_eq_true_eq]
        have h0 : 0 < x.length := by omega
        simp only [List.length_nil]
        rw [List.getD_eq_getElem x 0 h0]
        exact hxvals _ (List.getElem_mem h0)
      rw [hA, hB]
      simp

theorem countPlaceOK_of_solve {p : Puzzle} {asg : List Nat} {v : Nat}
    (h : solvePlaceOK p asg v = true) : countPlaceOK p asg v = true := by
  unfold solvePlaceOK at h
  unfold countPlaceOK
  rw [Bool.and_eq_true] at h ⊢
  refine ⟨h.1, ?_⟩
  have h2 := h.2
  cases hcg : getCageForCell p.cages (asg.length / p.size) (asg.length % p.size) with
  | none =>
    rw [hcg] at h2
  | some cg =>
    rw [hcg] at h2
    exact h2

theorem solveAux_nil (p : Puzzle) (asg : List Nat) :
    solveAux p asg [] = Option.none := by
  simp only [solveAux]

theorem solveAux_cons (p : Puzzle) (asg : List Nat) (v : Nat) (rest : List Nat) :
    solveAux p asg (v :: rest) =
      if solvePlaceOK p asg v then
        if p.size * p.size ≤ asg.length + 1 then some (asg ++ [v])
        else
          match solveAux p (asg ++ [v]) (valueCandidates p.size) with
          | some g => some g
          | Option.none => solveAux p asg rest
      else solveAux p asg rest := by
  simp only [solveAux]

/-- Soundness of `backtrack`: a returned grid is full, extends the current
prefix, satisfies every per-step check of the counting search, and each of
its cells from the current one on passed the stricter `solvePlaceOK` test
(in particular its cell had a containing cage). -/
theorem solveAux_sound_aux (p : Puzzle) :
    ∀ (fuel : Nat) (asg : List Nat), p.size * p.size - asg.length ≤ fuel →
      ∀ (vals g : List Nat),
        asg.length < p.size * p.size →
        ReachOK p asg →
        (∀ v ∈ vals, v ∈ valueCandidates p.size) →
        solveAux p asg vals = some g →
        g.length = p.size * p.size ∧ g.take asg.length = asg ∧ ReachOK p g ∧
          ∀ i, asg.length ≤ i → i < g.length →
            solvePlaceOK p (g.take i) (g.getD i 0) = true := by
  intro fuel
  induction fuel with
  | zero =>
    intro asg hfuel vals g hlen
    omega
  | succ fuel ihf =>
    intro asg hfuel vals
    induction vals with
    | nil =>
      intro g hlen hreach hsub h
      rw [solveAux_nil] at h
      exact absurd h (by simp)
    | cons v rest ihv =>
      intro g hlen hreach hsub h
      rw [solveAux_cons] at h
      have hvc : v ∈ valueCandidates p.size := hsub v (List.mem_cons_self _ _)
      have hsubr : ∀ w ∈ rest, w ∈ valueCandidates p.size :=
        fun w hw => hsub w (List.mem_cons_of_mem _ hw)
      by_cases hplace : solvePlaceOK p asg v = true
      · rw [if_pos hplace] at h
        have hreach1 : ReachOK p (asg ++ [v]) :=
          reachOK_append hreach hvc (countPlaceOK_of_solve hplace)
        by_cases hbase : p.size * p.size ≤ asg.length + 1
        · rw [if_pos hbase] at h
          have hg : g = asg ++ [v] := (Option.some.inj h).symm
          subst hg
          have hglen : (asg ++ [v]).length = p.size * p.size := by
            rw [List.length_append, List.length_singleton]; omega
          refine ⟨hglen, take_append_len, hreach1, ?_⟩
          intro i hi1 hi2
          rw [List.length_append, List.length_singleton] at hi2
          have hieq : i = asg.length := by omega
          subst hieq
          rw [take_append_len, getD_append_len]
          exact hplace
        · rw [if_neg hbase] at h
          cases hrec : solveAux p (asg ++ [v]) (valueCandidates p.size) with
          | some g' =>
            rw [hrec] at h
            have hg : g' = g := Option.some.inj h
            subst hg
            have hih := ihf (asg ++ [v])
              (by rw [List.length_append, List.length_singleton]; omega)
              (valueCandidates p.size) g'
              (by rw [List.length_append, List.length_singleton]; omega)
              hreach1 (fun w hw => hw) hrec
            obtain ⟨hglen, htake1, hreachg, hsteps⟩ := hih
            rw [List.length_append, List.length_singleton] at htake1 hsteps
            have htake0 : g'.take asg.length = asg := by
              have h1 := congrArg (List.take asg.length) htake1
              rw [List.take_take, List.take_append_of_le_length (le_refl _),
                List.take_length, Nat.min_eq_left (Nat.le_succ _)] at h1
              exact h1
            refine ⟨hglen, htake0, hreachg, ?_⟩
            intro i hi1 hi2
            rcases Nat.eq_or_lt_of_le hi1 with hieq | hilt
            · subst hieq
              have hv : g'.getD asg.length 0 = v := by
                rw [← getD_take_lt (Nat.lt_succ_self asg.length), htake1,
                  getD_append_len]
              rw [htake0, hv]
              exact hplace
            · exact hsteps i (by omega) hi2
          | none =>
            rw [hrec] at h
            have h2 : solveAux p asg rest = some g := h
            exact ihv g hlen hreach hsubr h2
      · rw [if_neg hplace] at h
        exact ihv g hlen hreach hsubr h

theorem cages_nil_of_size_zero (p : Puzzle) (hwf : PuzzleWF p)
    (hz : p.size * p.size = 0) : p.cages = [] := by
  have hn0 : p.size = 0 := by
    rcases Nat.mul_eq_zero.mp hz with h | h <;> exact h
  cases hcg : p.cages with
  | nil => rfl
  | cons a rest =>
    exfalso
    obtain ⟨hne, hbnd⟩ := hwf.1 a (by rw [hcg]; exact List.mem_cons_self _ _)
    cases ha : a.cells with
    | nil => exact hne ha
    | cons c cs =>
      have hb := hbnd c (by rw [ha]; exact List.mem_cons_self _ _)
      omega

theorem solvePuzzle_sound (p : Puzzle) (hwf : PuzzleWF p) (g : List Nat)
    (h : solvePuzzle p = some g) :
    g.length = p.size * p.size ∧ isSolutionList p g = true := by
  unfold solvePuzzle at h
  by_cases hz : p.size * p.size = 0
  · rw [if_pos hz] at h
    have hg : g = [] := (Option.some.inj h).symm
    subst hg
    have hcages := cages_nil_of_size_zero p hwf hz
    refine ⟨by simp [hz], ?_⟩
    simp [isSolutionList, hz, hcages]
  · rw [if_neg hz] at h
    obtain ⟨hglen, _, hreachg, _⟩ := solveAux_sound_aux p (p.size * p.size) []
      (by simp) (valueCandidates p.size) g
      (by simp only [List.length_nil]; omega) (reachOK_nil p) (fun w hw => hw) h
    exact ⟨hglen, solution_of_reach hwf hglen hreachg⟩

/-- The 2×2 puzzle of the claim: two row cages, each clued `+3`.  Both
Latin squares `[[1,2],[2,1]]` and `[[2,1],[1,2]]` solve it. -/
def twoCagePlus3 : Puzzle :=
  { id := ⟨Difficulty.easy, 2, 0, 0⟩
    size := 2
    difficulty := Difficulty.easy
    cages := [⟨0, [⟨0, 0⟩, ⟨0, 1⟩], ⟨3, Op.add⟩⟩, ⟨1, [⟨1, 0⟩, ⟨1, 1⟩], ⟨3, Op.add⟩⟩]
    solution := fun _ _ => 0
    seed := Option.none }

/-- C1: on every well-formed puzzle, `hasUniqueSolution`'s internal counter
equals the number of satisfying full assignments capped at 2 (the search
stops the instant a second solution is found), so the result is `true`
exactly when the puzzle has exactly one solution and `false` both for zero
and for two or more; in particular the 2×2 puzzle with two `+3` cages
(which has two solutions) yields `false`. -/
theorem hasUniqueSolution_spec (p : Puzzle) (hwf : PuzzleWF p) :
    countSolutions p = min 2 (numSolutions p) ∧
    (hasUniqueSolution p = true ↔ numSolutions p = 1) ∧
    (hasUniqueSolution p = false ↔ (numSolutions p = 0 ∨ 2 ≤ numSolutions p)) ∧
    (numSolutions twoCagePlus3 = 2 ∧ hasUniqueSolution twoCagePlus3 = false) := by
  have hce := countSolutions_eq p hwf
  have hwf2 : PuzzleWF twoCagePlus3 := by decide
  have hnum2 : numSolutions twoCagePlus3 = 2 := by decide
  have hce2 := countSolutions_eq twoCagePlus3 hwf2
  refine ⟨hce, ?_, ?_, hnum2, ?_⟩
  · unfold hasUniqueSolution
    rw [beq_iff_eq, hce]
    omega
  · unfold hasUniqueSolution
    rw [beq_eq_false_iff_ne, ne_eq, hce]
    omega
  · unfold hasUniqueSolution
    rw [hce2, hnum2]
    rfl

theorem hasUniqueSolution_spec_witness :
    PuzzleWF twoCagePlus3 ∧
      (countSolutions twoCagePlus3 = min 2 (numSolutions twoCagePlus3) ∧
       (hasUniqueSolution twoCagePlus3 = true ↔ numSolutions twoCagePlus3 = 1) ∧
       (hasUniqueSolution twoCagePlus3 = false ↔
         (numSolutions twoCagePlus3 = 0 ∨ 2 ≤ numSolutions twoCagePlus3)) ∧
       (numSolutions twoCagePlus3 = 2 ∧ hasUniqueSolution twoCagePlus3 = false)) :=
  ⟨by decide, hasUniqueSolution_spec twoCagePlus3 (by decide)⟩

/-- A 1×1 puzzle with the single cell caged `1 none`; `solvePuzzle` fills it. -/
def oneCage1x1 : Puzzle :=
  { id := ⟨Difficulty.easy, 1, 0, 0⟩
    size := 1
    difficulty := Difficulty.easy
    cages := [⟨0, [⟨0, 0⟩], ⟨1, Op.none⟩⟩]
    solution := fun _ _ => 0
    seed := Option.none }

/-- C7: `solvePuzzle` is a total function into an option type: it returns
either the explicit no-solution value or a fully filled grid, and in the
latter case every cell holds a value in `1..N`, no row or column repeats a
value, and every cage passes its exact arithmetic check. -/
theorem solvePuzzle_spec (p : Puzzle) (hwf : PuzzleWF p) :
    solvePuzzle p = Option.none ∨
    ∃ g, solvePuzzle p = some g ∧
      g.length = p.size * p.size ∧
      (∀ v ∈ g, 1 ≤ v ∧ v ≤ p.size) ∧
      (∀ i, i < p.size * p.size →
        isValidPlacement g p.size (i / p.size) (i % p.size) (g.getD i 0) = true) ∧
      (∀ cg ∈ p.cages, isFullCageValid cg (cageCellValues p.size cg g) = true) := by
  cases hsp : solvePuzzle p with
  | none => exact Or.inl rfl
  | some g =>
    right
    obtain ⟨hglen, hsol⟩ := solvePuzzle_sound p hwf g hsp
    obtain ⟨_, hvals, hplaces, hcages⟩ := isSolutionList_iff.mp hsol
    refine ⟨g, rfl, hglen, hvals, hplaces, ?_⟩
    intro cg hcg
    have hnz : ∀ c ∈ cg.cells, gridGet g p.size c.row c.col ≠ 0 := by
      intro c hcm
      obtain ⟨_, hbnd⟩ := hwf.1 cg hcg
      have hb := hbnd c hcm
      have hidx : c.row * p.size + c.col < g.length := by
        rw [hglen]; exact cellIdx_lt hb.1 hb.2
      unfold gridGet
      have hv : 1 ≤ g.getD (c.row * p.size + c.col) 0 := by
        rw [List.getD_eq_getElem g 0 hidx]
        exact (hvals _ (List.getElem_mem hidx)).1
      omega
    have := hcages cg hcg
    rwa [isCageSatisfied_no_empty hnz true] at this

theorem solvePuzzle_spec_witness :
    PuzzleWF oneCage1x1 ∧
      (solvePuzzle oneCage1x1 = Option.none ∨
       ∃ g, solvePuzzle oneCage1x1 = some g ∧
         g.length = oneCage1x1.size * oneCage1x1.size ∧
         (∀ v ∈ g, 1 ≤ v ∧ v ≤ oneCage1x1.size) ∧
         (∀ i, i < oneCage1x1.size * oneCage1x1.size →
           isValidPlacement g oneCage1x1.size (i / oneCage1x1.size)
             (i % oneCage1x1.size) (g.getD i 0) = true) ∧
         (∀ cg ∈ oneCage1x1.cages,
           isFullCageValid cg (cageCellValues oneCage1x1.size cg g) = true)) :=
  ⟨by decide, solvePuzzle_spec oneCage1x1 (by decide)⟩

/-- A 1×1 puzzle with no cages at all: its single cell is uncovered. -/
def noCage1x1 : Puzzle :=
  { id := ⟨Difficulty.easy, 1, 0, 0⟩
    size := 1
    difficulty := Difficulty.easy
    cages := []
    solution := fun _ _ => 0
    seed := Option.none }

/-- C9: a puzzle with an in-bounds cell covered by no cage is never solved:
`backtrack` only recurses past a cell with a containing cage, so
`solvePuzzle` returns the no-solution value even when a satisfying
completion exists — while `hasUniqueSolution` treats the cage-less cell as
unconstrained: on the 1×1 puzzle with no cages the solver gives up but the
uniqueness counter still reports a unique solution. -/
theorem solvePuzzle_uncovered (p : Puzzle) (r c : Nat)
    (hr : r < p.size) (hc : c < p.size)
    (hun : getCageForCell p.cages r c = Option.none) :
    solvePuzzle p = Option.none ∧
    (solvePuzzle noCage1x1 = Option.none ∧ hasUniqueSolution noCage1x1 = true) := by
  have hcontrast : solvePuzzle noCage1x1 = Option.none ∧
      hasUniqueSolution noCage1x1 = true := by
    constructor
    · cases hsp : solvePuzzle noCage1x1 with
      | none => rfl
      | some g =>
        exfalso
        have hN : noCage1x1.size * noCage1x1.size = 1 := rfl
        unfold solvePuzzle at hsp
        rw [hN, if_neg (by omega)] at hsp
        obtain ⟨hglen, _, _, hsteps⟩ := solveAux_sound_aux noCage1x1 1 []
          (by simp [hN]) (valueCandidates noCage1x1.size) g
          (by simp [hN]) (reachOK_nil _) (fun w hw => hw) hsp
        have hstep := hsteps 0 (by simp) (by rw [hglen, hN]; omega)
        unfold solvePlaceOK at hstep
        rw [Bool.and_eq_true] at hstep
        have h2 := hstep.2
        have hcg : getCageForCell noCage1x1.cages
            ((g.take 0).length / noCage1x1.size)
            ((g.take 0).length % noCage1x1.size) = Option.none := rfl
        rw [hcg] at h2
        simp at h2
    · have hwf : PuzzleWF noCage1x1 := ⟨by simp [noCage1x1], by simp [noCage1x1]⟩
      have hce := countSolutions_eq noCage1x1 hwf
      have hnum : numSolutions noCage1x1 = 1 := by decide
      unfold hasUniqueSolution
      rw [hce, hnum]
      rfl
  refine ⟨?_, hcontrast⟩
  cases hsp : solvePuzzle p with
  | none => rfl
  | some g =>
    exfalso
    have hN : r * p.size + c < p.size * p.size := cellIdx_lt hr hc
    unfold solvePuzzle at hsp
    rw [if_neg (by omega)] at hsp
    obtain ⟨hglen, _, _, hsteps⟩ := solveAux_sound_aux p (p.size * p.size) []
      (by simp) (valueCandidates p.size) g
      (by simp only [List.length_nil]; omega) (reachOK_nil _) (fun w hw => hw) hsp
    have hstep := hsteps (r * p.size + c) (by simp) (by omega)
    unfold solvePlaceOK at hstep
    rw [Bool.and_eq_true] at hstep
    have h2 := hstep.2
    have hlen_take : (g.take (r * p.size + c)).length = r * p.size + c := by
      rw [List.length_take]
      omega
    rw [hlen_take, cellIdx_div hc, cellIdx_mod hc, hun] at h2
    simp at h2

theorem solvePuzzle_uncovered_witness :
    ((0 : Nat) < noCage1x1.size ∧ (0 : Nat) < noCage1x1.size ∧
      getCageForCell noCage1x1.cages 0 0 = Option.none) ∧
    (solvePuzzle noCage1x1 = Option.none ∧
      (solvePuzzle noCage1x1 = Option.none ∧
       hasUniqueSolution noCage1x1 = true)) :=
  ⟨⟨by decide, by decide, by decide⟩,
    solvePuzzle_uncovered noCage1x1 0 0 (by decide) (by decide) (by decide)⟩

/-- C5: for a two-cell cage with solution values `a`, `b` (both at least 1,
as grid values always are) and any allowed-operation set, the derived clue
is the highest-priority eligible operation in the fixed order
`÷ > × > - > +`, with the stated eligibility conditions, falling back to
addition with target `a + b` when nothing is eligible. -/
theorem calculateTwoCellClue_spec (a b : Nat) (operations : List Op)
    (ha : 1 ≤ a) (hb : 1 ≤ b) :
    calculateTwoCellClue [a, b] operations = claimedTwoCellClue a b operations := by
  have hmin : (Nat.min a b != 0) = true := by simp [bne_iff_ne]; omega
  unfold calculateTwoCellClue claimedTwoCellClue twoCellCandidates maxByPriority
  cases hadd : operations.contains Op.add <;>
    cases hsub : operations.contains Op.sub <;>
      cases hmul : operations.contains Op.mul <;>
        cases hdiv : operations.contains Op.div <;>
          by_cases hab : a = b <;>
            by_cases hdvd : Nat.max a b % Nat.min a b = 0 <;>
              simp_all [bne_iff_ne]

theorem calculateTwoCellClue_spec_witness :
    1 ≤ 2 ∧ 1 ≤ 6 ∧
      calculateTwoCellClue [2, 6] [Op.add, Op.sub, Op.mul, Op.div] =
        claimedTwoCellClue 2 6 [Op.add, Op.sub, Op.mul, Op.div] :=
  ⟨by decide, by decide,
    calculateTwoCellClue_spec 2 6 [Op.add, Op.sub, Op.mul, Op.div]
      (by decide) (by decide)⟩

end Squarewise
